import Mathlib

/-!
Verification of the NoteApp core document model.

This file gives a shallow embedding of the C++/Qt sources under `src/src/core`
(`object.cpp`, `textobject.cpp`, `drawingobject.cpp`, `page.cpp`,
`document.cpp`, `storage.cpp`) and proves or refutes the specified claims
about them.

Modelling conventions:
* Machine `int` becomes `Int`; C++ `/` on `int` truncates toward zero and is
  modelled by `Int.tdiv`.
* `double` values (the `scale` factor, pen widths) are modelled as exact
  rationals `ℚ`; `static_cast<int>(d)` truncates toward zero.
* Qt containers (`QVector`, `QStringList`) become `List`; `QMap` becomes an
  association list with unique keys (insertion point of new keys differs from
  QMap's key-sorted order, which no claim depends on).
* `shared_ptr` identity (used by `indexOf` / pointer comparison) is modelled
  by a numeric or string identity token carried by each record; tokens are
  assumed distinct where the code relies on pointer identity, matching the
  UUID-per-entity design.
* Qt signal/slot wiring is inlined: `Object::setLayer` emits `layerChanged`
  only when the value actually changes, and `Page::onObjectLayerChanged`
  re-sorts; the model calls the sort exactly where the slot would run.
* `std::sort` with the strict comparator `a->layer() < b->layer()` is
  modelled by its contract: the Page operations are parameterised over an
  arbitrary function `sort` assumed to satisfy `IsLayerSort` (output sorted
  by layer and a permutation of the input) — the relative order of equal
  keys is deliberately left unspecified, as in the C++ standard.  The
  executable `sortObjectsByLayer` (an insertion sort) is one admissible
  implementation, used to run concrete instances.
* `QColor` is modelled as an rgb string plus an alpha value:
  `QColor::name()` emits only `#RRGGBB`, and parsing a name yields alpha
  255, so colors do not round-trip their alpha channel.
* The height that `QTextDocument` assigns to rendered text (used by
  `TextObject::updateDocumentSize` to re-fit the bounds height) depends on
  the rendering engine; it is modelled as an abstract function of the
  object state.
-/

namespace NoteApp

/-! ### Geometry: QPoint and QRect -/

/-- A `QPoint` with integer coordinates. -/
structure Pt where
  x : Int
  y : Int
deriving DecidableEq, Repr

/-- A `QRect` stored as position plus size, as in the `Object` bounds.
Qt represents the rectangle by corners `x1 = x, x2 = x + w - 1` (and likewise
for `y`); width and height may be zero or negative. -/
structure Rect where
  x : Int
  y : Int
  w : Int
  h : Int
deriving DecidableEq, Repr

/-- `QRect::contains(point)` (non-proper form): each axis is first normalised
by swapping the two corners when `x2 < x1 - 1`, then the point must lie
between them inclusively. -/
def Rect.containsPt (r : Rect) (p : Pt) : Bool :=
  let x2 := r.x + r.w - 1
  let y2 := r.y + r.h - 1
  let lox := if x2 < r.x - 1 then x2 else r.x
  let hix := if x2 < r.x - 1 then r.x else x2
  let loy := if y2 < r.y - 1 then y2 else r.y
  let hiy := if y2 < r.y - 1 then r.y else y2
  decide (lox ≤ p.x) && decide (p.x ≤ hix) && decide (loy ≤ p.y) && decide (p.y ≤ hiy)

/-- `QRect::center()`: `((x1 + x2) / 2, (y1 + y2) / 2)` where `x2 = x + w - 1`,
the sum taken in 64 bits and divided with C++ truncation toward zero. -/
def Rect.center (r : Rect) : Pt :=
  ⟨Int.tdiv (2 * r.x + r.w - 1) 2, Int.tdiv (2 * r.y + r.h - 1) 2⟩

/-- Truncation toward zero of a rational, i.e. `static_cast<int>(double)`. -/
def truncQ (q : ℚ) : Int := Int.tdiv q.num (q.den : Int)

/-- `Object::scale(double factor)`: remembers the integer center, multiplies
each dimension by the factor truncating toward zero, and re-anchors the
rectangle at `center - (newW / 2, newH / 2)`.  The `double` factor is
modelled as an exact rational; `static_cast<int>` is truncation toward zero
of the product. -/
def Rect.scale (r : Rect) (factor : ℚ) : Rect :=
  let c := r.center
  let nw := truncQ ((r.w : ℚ) * factor)
  let nh := truncQ ((r.h : ℚ) * factor)
  ⟨c.x - Int.tdiv nw 2, c.y - Int.tdiv nh 2, nw, nh⟩

/-! ### Objects as seen by `Page`

`Page` manipulates objects only through the base-class state declared in
`object.h`: bounds, layer, visibility, selection, and `shared_ptr` identity.
The variant payload (text content, strokes) plays no role in the layering and
hit-testing code, so this record carries exactly the base-class state plus an
identity token `oid` standing for the `shared_ptr` address. -/
structure Obj where
  oid : Nat
  bounds : Rect
  layer : Int
  visible : Bool
  selected : Bool
deriving DecidableEq, Repr

/-- One step of an insertion sort on the `std::sort` comparator
`a->layer() < b->layer()`. -/
def insLayer (o : Obj) : List Obj → List Obj
  | [] => [o]
  | b :: l => if o.layer ≤ b.layer then o :: b :: l else b :: insLayer o l

/-- An executable implementation of `Page::sortObjectsByLayer()` — one
admissible behaviour of `std::sort`, used to run concrete instances.  The
theorems about the sorting operations quantify over every function
satisfying `IsLayerSort` instead, so nothing proved about the program
depends on how this implementation orders equal keys. -/
def sortObjectsByLayer (l : List Obj) : List Obj :=
  l.foldr insLayer []

/-- The Page invariant: iteration order has non-decreasing layer values. -/
def SortedByLayer (l : List Obj) : Prop :=
  List.Pairwise (fun a b => a.layer ≤ b.layer) l

/-- The `std::sort` contract for the comparator
`a->layer() < b->layer()`: the output is sorted by layer and is a
permutation of the input.  The relative order of equal-layer elements is
unspecified. -/
def IsLayerSort (sort : List Obj → List Obj) : Prop :=
  ∀ l, SortedByLayer (sort l) ∧ List.Perm (sort l) l

/-- `QVector::indexOf(object)` under `shared_ptr` pointer comparison,
modelled through the identity token. -/
def findIdxOid (oid : Nat) (l : List Obj) : Option Nat :=
  l.findIdx? (fun o => o.oid = oid)

/-- `QVector::move(from, to)`: remove the element at `from` and re-insert it
at `to`. -/
def listMove (l : List Obj) (i j : Nat) : List Obj :=
  match l[i]? with
  | none => l
  | some a => (l.eraseIdx i).insertIdx j a

/-- `Object::setLayer(k)` on the object identified by `oid`, together with the
`layerChanged → Page::onObjectLayerChanged → sortObjectsByLayer` wiring:
the signal fires (and the page re-sorts, with the given `std::sort`
behaviour) only when the stored layer actually changes. -/
def setLayerNotify (sort : List Obj → List Obj) (l : List Obj) (oid : Nat)
    (k : Int) : List Obj :=
  match findIdxOid oid l with
  | none => l
  | some j =>
    match l[j]? with
    | none => l
    | some o => if o.layer = k then l else sort (l.set j { o with layer := k })

/-- `Page::addObject`: append, then re-sort by layer. -/
def addObject (sort : List Obj → List Obj) (l : List Obj) (o : Obj) : List Obj :=
  sort (l ++ [o])

/-- `Page::removeObject(int index)`: erase when the index is in range. -/
def removeObjectIdx (l : List Obj) (i : Nat) : List Obj :=
  if i < l.length then l.eraseIdx i else l

/-- `Page::removeObject(object)`: erase the first (unique) occurrence. -/
def removeObject (l : List Obj) (oid : Nat) : List Obj :=
  match findIdxOid oid l with
  | none => l
  | some i => l.eraseIdx i

/-- `Page::bringToFront`: move to the back of the vector, then assign layer
`size - 1` (which re-sorts only if that layer value is new for the object). -/
def bringToFront (sort : List Obj → List Obj) (l : List Obj) (oid : Nat) :
    List Obj :=
  match findIdxOid oid l with
  | none => l
  | some i =>
    let m := listMove l i (l.length - 1)
    setLayerNotify sort m oid ((l.length : Int) - 1)

/-- `Page::sendToBack`: move to the front of the vector, then assign layer 0. -/
def sendToBack (sort : List Obj → List Obj) (l : List Obj) (oid : Nat) :
    List Obj :=
  match findIdxOid oid l with
  | none => l
  | some i =>
    let m := listMove l i 0
    setLayerNotify sort m oid 0

/-- `Page::bringForward`: when not already last, move one position toward the
back and assign layer `index + 1`. -/
def bringForward (sort : List Obj → List Obj) (l : List Obj) (oid : Nat) :
    List Obj :=
  match findIdxOid oid l with
  | none => l
  | some i =>
    if i + 1 < l.length then
      let m := listMove l i (i + 1)
      setLayerNotify sort m oid ((i : Int) + 1)
    else l

/-- `Page::sendBackward`: when not already first, move one position toward the
front and assign layer `index - 1`. -/
def sendBackward (sort : List Obj → List Obj) (l : List Obj) (oid : Nat) :
    List Obj :=
  match findIdxOid oid l with
  | none => l
  | some i =>
    if 0 < i then
      let m := listMove l i (i - 1)
      setLayerNotify sort m oid ((i : Int) - 1)
    else l

/-- `Page::setObjectLayer`: `object->setLayer(layer)` (with its conditional
re-sort through the signal) followed by an unconditional re-sort. -/
def setObjectLayer (sort : List Obj → List Obj) (l : List Obj) (oid : Nat)
    (k : Int) : List Obj :=
  sort (setLayerNotify sort l oid k)

/-- `Page::objectAt(point)`: scan from the end of the vector toward the front
and return the first visible object whose bounds contain the point. -/
def objectAt (l : List Obj) (p : Pt) : Option Obj :=
  l.reverse.find? (fun o => o.visible && o.bounds.containsPt p)

/-- The Page mutations quantified over by the layering claims. -/
inductive PageOp where
  | add (o : Obj)
  | removeIdx (i : Nat)
  | remove (oid : Nat)
  | toFront (oid : Nat)
  | toBack (oid : Nat)
  | forward (oid : Nat)
  | backward (oid : Nat)
  | setLayer (oid : Nat) (k : Int)
deriving DecidableEq, Repr

/-- Apply one Page mutation to the object vector, under a given `std::sort`
behaviour. -/
def applyOp (sort : List Obj → List Obj) (l : List Obj) : PageOp → List Obj
  | .add o => addObject sort l o
  | .removeIdx i => removeObjectIdx l i
  | .remove oid => removeObject l oid
  | .toFront oid => bringToFront sort l oid
  | .toBack oid => sendToBack sort l oid
  | .forward oid => bringForward sort l oid
  | .backward oid => sendBackward sort l oid
  | .setLayer oid k => setObjectLayer sort l oid k

/-- Apply a sequence of Page mutations. -/
def applyOps (sort : List Obj → List Obj) (l : List Obj) (ops : List PageOp) :
    List Obj :=
  ops.foldl (applyOp sort) l

/-- The mutations that end in (or preserve) a full re-sort: object insertion,
object removal and explicit layer assignment. -/
def SortingOp : PageOp → Prop
  | .add _ => True
  | .removeIdx _ => True
  | .remove _ => True
  | .setLayer _ _ => True
  | _ => False

/-- Layer values equal to list positions, starting at `n`: the state reached
by pages whose layers were assigned by the code's own boundary assignments. -/
def LayersFrom : Int → List Obj → Prop
  | _, [] => True
  | n, o :: t => o.layer = n ∧ LayersFrom (n + 1) t

/-! ### Document: pages, current-page cursor, link table

`Document` keeps an ordered `QVector<shared_ptr<Page>>`, a current-page
pointer and a `QMap<QString, QStringList>` link table.  Pages are modelled by
their id and title (object contents are irrelevant to these claims); the
current-page pointer is modelled by the page id, ids being unique per page.
The link table is an association list with unique keys; `QMap::operator[]`
default-constructs a missing entry. -/

structure PageD where
  pid : String
  title : String
deriving DecidableEq, Repr

structure DocState where
  id : String
  title : String
  description : String
  pages : List PageD
  current : Option String
  modified : Bool
  links : List (String × List String)
  tags : List String
deriving DecidableEq, Repr

/-- `Document::addPage`: append, adopt as current page if none, mark
modified. -/
def addPage (d : DocState) (pg : PageD) : DocState :=
  let d1 := { d with pages := d.pages ++ [pg] }
  let d2 := if d1.current = none then { d1 with current := some pg.pid } else d1
  { d2 with modified := true }

/-- `Document::createNewPage`: default title for an empty string, then
`addPage`; `freshPid` stands for the UUID generated by the Page constructor. -/
def createNewPage (d : DocState) (title : String) (freshPid : String) : DocState :=
  addPage d ⟨freshPid, if title = "" then "Untitled Page" else title⟩

/-- The `Document` constructor: fresh id, default title, `modified = false`,
then `createNewPage("Page 1")`. -/
def newDocument (freshDocId freshPid : String) : DocState :=
  createNewPage
    { id := freshDocId, title := "Untitled Document", description := ""
      pages := [], current := none, modified := false, links := [], tags := [] }
    "Page 1" freshPid

/-- `Document::removePage(page)`: erase the page; when it was current, select
index `qMax(0, index - 1)` of the shrunk vector (Nat subtraction saturates at
0 exactly like `qMax`), or null when the vector became empty. -/
def removePage (d : DocState) (pid : String) : DocState :=
  match d.pages.findIdx? (fun pg => pg.pid = pid) with
  | none => d
  | some i =>
    let pages' := d.pages.eraseIdx i
    let cur' :=
      if d.current = some pid then
        if pages'.isEmpty then none else (pages'[i - 1]?).map (·.pid)
      else d.current
    { d with pages := pages', current := cur', modified := true }

/-- `QMap<QString, QStringList>::operator[]`: default-construct the entry when
the key is absent.  (QMap stores keys sorted; this model appends new keys at
the end, which no claim observes.) -/
def ensureKey (m : List (String × List String)) (k : String) :
    List (String × List String) :=
  if m.any (fun e => e.1 = k) then m else m ++ [(k, [])]

/-- Lookup of `m_links[k]` for reading (first — unique — matching entry). -/
def linksGet (m : List (String × List String)) (k : String) : List String :=
  match m.find? (fun e => e.1 = k) with
  | some e => e.2
  | none => []

/-- In-place update of the entry with key `k`. -/
def mapUpdate (m : List (String × List String)) (k : String)
    (f : List String → List String) : List (String × List String) :=
  m.map (fun e => if e.1 = k then (e.1, f e.2) else e)

/-- `Document::addLink(from, to)`: append `to` to `m_links[from]` unless
already present. -/
def addLink (m : List (String × List String)) (a b : String) :
    List (String × List String) :=
  let m' := ensureKey m a
  if b ∈ linksGet m' a then m' else mapUpdate m' a (fun l => l ++ [b])

/-- `Document::removeLink(from, to)`: `m_links[from].removeAll(to)`. -/
def removeLink (m : List (String × List String)) (a b : String) :
    List (String × List String) :=
  let m' := ensureKey m a
  mapUpdate m' a (fun l => l.filter (fun t => t ≠ b))

/-- `Document::getBacklinks(pageId)`: scan every entry and collect the source
keys whose target list contains `pageId` (`QStringList::contains` is list
membership). -/
def getBacklinks (m : List (String × List String)) (pid : String) :
    List String :=
  (m.filter (fun e => decide (pid ∈ e.2))).map (·.1)

/-! ### Storage: transactional document save

`Storage::saveDocument` runs the document-row `INSERT OR REPLACE` and one
per-page `INSERT OR REPLACE` per page inside a single transaction, rolling
back on the first failed statement.  The store is modelled as two id-keyed
row maps; blobs are opaque strings (the claim is about row-level atomicity,
not blob contents).  Writes inside the transaction act on a pending copy of
the store; commit installs the pending copy and rollback discards it, which
is exactly SQLite's transaction view.  Statement failures are injected
through Boolean outcomes: `docOk` for the document row and `pageOk n` for the
`n`-th page write. -/

structure DocRow where
  title : String
  description : String
  createdDate : String
  modifiedDate : String
  tags : String
  blob : String
deriving DecidableEq, Repr

structure PageRow where
  docId : String
  title : String
  blob : String
deriving DecidableEq, Repr

structure DB where
  docs : String → Option DocRow
  pages : String → Option PageRow

/-- A page as the save loop consumes it: its id plus the row computed from
it. -/
structure SPage where
  id : String
  row : PageRow
deriving DecidableEq, Repr

/-- A document as `saveDocument` consumes it: its id, the document row
computed from its metadata and blob, and its pages. -/
structure SDoc where
  id : String
  row : DocRow
  pages : List SPage

/-- `INSERT OR REPLACE INTO documents`. -/
def upsertDoc (db : DB) (id : String) (r : DocRow) : DB :=
  { db with docs := fun k => if k = id then some r else db.docs k }

/-- `INSERT OR REPLACE INTO pages`. -/
def upsertPage (db : DB) (id : String) (r : PageRow) : DB :=
  { db with pages := fun k => if k = id then some r else db.pages k }

/-- The per-page save loop inside the transaction: `none` signals the first
failed page write (after which `saveDocument` rolls back). -/
def savePagesLoop (pending : DB) (ps : List SPage) (pageOk : Nat → Bool)
    (n : Nat) : Option DB :=
  match ps with
  | [] => some pending
  | pg :: rest =>
    if pageOk n then savePagesLoop (upsertPage pending pg.id pg.row) rest pageOk (n + 1)
    else none

/-- `Storage::saveDocument`: not-open guard, begin, document-row upsert,
per-page upsert loop, then commit; any failed statement rolls the whole
transaction back and reports failure. -/
def saveDocument (db : DB) (d : SDoc) (initialized : Bool) (docOk : Bool)
    (pageOk : Nat → Bool) : Bool × DB :=
  if !initialized then (false, db)
  else
    -- beginTransaction: subsequent writes build the pending state
    if !docOk then (false, db) -- document-row failure: rollbackTransaction
    else
      let pending := upsertDoc db d.id d.row
      match savePagesLoop pending d.pages pageOk 0 with
      | none => (false, db) -- page failure: rollbackTransaction
      | some p => (true, p) -- commitTransaction

/-! ### TextObject and DrawingObject: serialization and clone

Both `clone()` overrides construct a default object and feed it the
original's `toJson()` through `fromJson`.  JSON objects are modelled as typed
records with exactly the fields the code writes; `fromJson` overwrites
exactly the fields the code reads, leaving the rest of the freshly
constructed object (notably `m_selected` and, for drawings, the transient
stroke-capture state and the brushes, which `toJson` never writes) at their
constructor defaults.  Two lossy steps of the source are modelled
explicitly: every color is serialized via `QColor::name()`, which emits only
`#RRGGBB` and loses the alpha channel (reading a name back yields alpha
255); and `TextObject::fromJson` ends in `setupDocument()`, whose
`updateDocumentSize()` re-fits the bounds height to the height of the
freshly rendered `QTextDocument` — a rendering-engine value, modelled as an
abstract function `renderHeight` of the object state.  Stroke paths travel
through `QPainterPath::toSvgPath` and back; for the polylines built by
`moveTo`/`lineTo` on integer points this round-trips, so the path payload is
modelled directly as the point list. -/

/-- A `QColor`: the `#RRGGBB` part plus the alpha channel.  `name()` returns
only `rgb`; constructing a color from a name yields alpha 255. -/
structure QColorM where
  rgb : String
  alpha : Nat
deriving DecidableEq, Repr

/-- `QColor(QString name)`: parses `#RRGGBB`, alpha 255. -/
def colorFromName (s : String) : QColorM := ⟨s, 255⟩

structure TextObject where
  oid : String
  bounds : Rect
  selected : Bool
  layer : Int
  visible : Bool
  content : String
  markdownMode : Bool
  fontFamily : String
  fontSize : Int
  fontBold : Bool
  fontItalic : Bool
  textColor : QColorM
  backgroundColor : QColorM
  alignment : Int
  lineSpacing : Int
  editing : Bool
deriving DecidableEq, Repr

/-- The `TextObject` constructor state; `freshId` is the generated UUID, the
font is `QApplication::font()` (ambient, fixed here), the text color is
Qt::black and the background Qt::transparent (rgb 0 with alpha 0). -/
def defaultTextObject (freshId : String) : TextObject where
  oid := freshId
  bounds := ⟨0, 0, 100, 100⟩
  selected := false
  layer := 0
  visible := true
  content := ""
  markdownMode := true
  fontFamily := "appfont"
  fontSize := 11
  fontBold := false
  fontItalic := false
  textColor := ⟨"#000000", 255⟩
  backgroundColor := ⟨"#000000", 0⟩
  alignment := 33
  lineSpacing := 0
  editing := false

/-- The JSON object written by `TextObject::toJson` (base `Object::toJson`
fields plus the text fields). -/
structure TextJson where
  id : String
  type : Int
  boundsX : Int
  boundsY : Int
  boundsW : Int
  boundsH : Int
  layer : Int
  visible : Bool
  content : String
  markdownMode : Bool
  fontFamily : String
  fontSize : Int
  fontBold : Bool
  fontItalic : Bool
  textColor : String
  backgroundColor : String
  alignment : Int
  lineSpacing : Int
deriving DecidableEq, Repr

/-- `TextObject::toJson`; the two colors are written through
`QColor::name()`, dropping their alpha. -/
def textToJson (o : TextObject) : TextJson where
  id := o.oid
  type := 0
  boundsX := o.bounds.x
  boundsY := o.bounds.y
  boundsW := o.bounds.w
  boundsH := o.bounds.h
  layer := o.layer
  visible := o.visible
  content := o.content
  markdownMode := o.markdownMode
  fontFamily := o.fontFamily
  fontSize := o.fontSize
  fontBold := o.fontBold
  fontItalic := o.fontItalic
  textColor := o.textColor.rgb
  backgroundColor := o.backgroundColor.rgb
  alignment := o.alignment
  lineSpacing := o.lineSpacing

/-- The field assignments of `TextObject::fromJson` applied to object state
`o`: overwrites every serialized field (including `m_id`, and the colors
re-parsed from their names with full alpha), leaves the rest of `o`
untouched.  This is the object state just before the trailing
`setupDocument()` call. -/
def textFromJsonFields (o : TextObject) (j : TextJson) : TextObject where
  oid := j.id
  bounds := ⟨j.boundsX, j.boundsY, j.boundsW, j.boundsH⟩
  selected := o.selected
  layer := j.layer
  visible := j.visible
  content := j.content
  markdownMode := j.markdownMode
  fontFamily := j.fontFamily
  fontSize := j.fontSize
  fontBold := j.fontBold
  fontItalic := j.fontItalic
  textColor := colorFromName j.textColor
  backgroundColor := colorFromName j.backgroundColor
  alignment := j.alignment
  lineSpacing := j.lineSpacing
  editing := o.editing

/-- `TextObject::fromJson`: the field assignments followed by
`setupDocument()`, whose `updateDocumentSize()` sets the bounds height to
the rendered document height (`renderHeight` stands for
`m_document->size().height()` on the freshly assigned state; when it already
equals the stored height the `setSize` call is skipped with the same net
result). -/
def textFromJson (o : TextObject) (j : TextJson)
    (renderHeight : TextObject → Int) : TextObject :=
  let o1 := textFromJsonFields o j
  { o1 with bounds := ⟨o1.bounds.x, o1.bounds.y, o1.bounds.w, renderHeight o1⟩ }

/-- `TextObject::clone`: default-construct (fresh UUID `freshId`), then
`clone->fromJson(this->toJson())`. -/
def cloneText (o : TextObject) (freshId : String)
    (renderHeight : TextObject → Int) : TextObject :=
  textFromJson (defaultTextObject freshId) (textToJson o) renderHeight

/-- A drawing stroke (`DrawingObject::Stroke`): path, pen descriptor, brush,
mode and timestamp. -/
structure Stroke where
  path : List Pt
  penColor : QColorM
  penWidth : ℚ
  penStyle : Int
  penCap : Int
  penJoin : Int
  brush : String
  mode : Int
  timestamp : Int
deriving DecidableEq, Repr

/-- `Stroke()` default constructor (pen and brush default-constructed). -/
def defaultStroke : Stroke where
  path := []
  penColor := ⟨"#000000", 255⟩
  penWidth := 1
  penStyle := 1
  penCap := 16
  penJoin := 64
  brush := "NoBrush"
  mode := 0
  timestamp := 0

/-- The JSON written by `strokeToJson`: mode, timestamp, SVG path and the pen
descriptor — the brush is not serialized. -/
structure StrokeJson where
  mode : Int
  timestamp : Int
  path : List Pt
  penColor : String
  penWidth : ℚ
  penStyle : Int
  penCap : Int
  penJoin : Int
deriving DecidableEq, Repr

/-- `DrawingObject::strokeToJson`; the pen color is written through
`QColor::name()`, dropping its alpha (a highlighter pen's alpha 128 is
lost). -/
def strokeToJson (s : Stroke) : StrokeJson where
  mode := s.mode
  timestamp := s.timestamp
  path := s.path
  penColor := s.penColor.rgb
  penWidth := s.penWidth
  penStyle := s.penStyle
  penCap := s.penCap
  penJoin := s.penJoin

/-- `DrawingObject::strokeFromJson`: a fresh `Stroke()` with the serialized
fields filled in (the pen color re-parsed from its name with full alpha);
the brush keeps its default. -/
def strokeFromJson (j : StrokeJson) : Stroke where
  path := j.path
  penColor := colorFromName j.penColor
  penWidth := j.penWidth
  penStyle := j.penStyle
  penCap := j.penCap
  penJoin := j.penJoin
  brush := defaultStroke.brush
  mode := j.mode
  timestamp := j.timestamp

structure DrawingObject where
  oid : String
  bounds : Rect
  selected : Bool
  layer : Int
  visible : Bool
  currentMode : Int
  currentPenColor : QColorM
  currentPenWidth : ℚ
  currentPenStyle : Int
  currentPenCap : Int
  currentPenJoin : Int
  currentBrush : String
  strokes : List Stroke
  selectedStrokes : List Nat
  drawing : Bool
  currentStroke : Stroke
  smoothPoints : List Pt
deriving DecidableEq, Repr

/-- The `DrawingObject` constructor state: pen-mode defaults, no strokes, not
drawing. -/
def defaultDrawingObject (freshId : String) : DrawingObject where
  oid := freshId
  bounds := ⟨0, 0, 100, 100⟩
  selected := false
  layer := 0
  visible := true
  currentMode := 0
  currentPenColor := ⟨"#000000", 255⟩
  currentPenWidth := 2
  currentPenStyle := 1
  currentPenCap := 32
  currentPenJoin := 128
  currentBrush := "NoBrush"
  strokes := []
  selectedStrokes := []
  drawing := false
  currentStroke := defaultStroke
  smoothPoints := []

/-- The JSON written by `DrawingObject::toJson`: base fields, serialized
strokes, current mode and current pen — `m_currentBrush`, the selection set
and the live capture state are not serialized. -/
structure DrawingJson where
  id : String
  type : Int
  boundsX : Int
  boundsY : Int
  boundsW : Int
  boundsH : Int
  layer : Int
  visible : Bool
  strokes : List StrokeJson
  currentMode : Int
  currentPenColor : String
  currentPenWidth : ℚ
  currentPenStyle : Int
  currentPenCap : Int
  currentPenJoin : Int
deriving DecidableEq, Repr

/-- `DrawingObject::toJson`; the current pen color is written through
`QColor::name()`, dropping its alpha. -/
def drawingToJson (o : DrawingObject) : DrawingJson where
  id := o.oid
  type := 1
  boundsX := o.bounds.x
  boundsY := o.bounds.y
  boundsW := o.bounds.w
  boundsH := o.bounds.h
  layer := o.layer
  visible := o.visible
  strokes := o.strokes.map strokeToJson
  currentMode := o.currentMode
  currentPenColor := o.currentPenColor.rgb
  currentPenWidth := o.currentPenWidth
  currentPenStyle := o.currentPenStyle
  currentPenCap := o.currentPenCap
  currentPenJoin := o.currentPenJoin

/-- `DrawingObject::fromJson` applied to object state `o`: overwrites the
base fields (including `m_id`), rebuilds `m_strokes` from the serialized
strokes, sets mode and pen (color re-parsed with full alpha); everything
else keeps the state of `o`. -/
def drawingFromJson (o : DrawingObject) (j : DrawingJson) : DrawingObject where
  oid := j.id
  bounds := ⟨j.boundsX, j.boundsY, j.boundsW, j.boundsH⟩
  selected := o.selected
  layer := j.layer
  visible := j.visible
  currentMode := j.currentMode
  currentPenColor := colorFromName j.currentPenColor
  currentPenWidth := j.currentPenWidth
  currentPenStyle := j.currentPenStyle
  currentPenCap := j.currentPenCap
  currentPenJoin := j.currentPenJoin
  currentBrush := o.currentBrush
  strokes := j.strokes.map strokeFromJson
  selectedStrokes := o.selectedStrokes
  drawing := o.drawing
  currentStroke := o.currentStroke
  smoothPoints := o.smoothPoints

/-- `DrawingObject::clone`: default-construct (fresh UUID `freshId`), then
`clone->fromJson(this->toJson())`. -/
def cloneDrawing (o : DrawingObject) (freshId : String) : DrawingObject :=
  drawingFromJson (defaultDrawingObject freshId) (drawingToJson o)

/-! ### Live stroke smoothing

`startStroke` seeds `m_smoothPoints` with the raw first point;
`addPointToStroke` passes each further point through `smoothPoint` and
appends the result to `m_smoothPoints` (and, outside eraser mode, to the
path).  The smoothing buffer therefore holds the emitted (smoothed) points,
and in pen mode the captured polyline equals the buffer. -/

/-- Componentwise integer mean (C++ truncating division by `count`, which is
the window length). -/
def windowMean (w : List Pt) : Pt :=
  ⟨Int.tdiv (w.map (·.x)).sum (w.length : Int), Int.tdiv (w.map (·.y)).sum (w.length : Int)⟩

/-- `DrawingObject::smoothPoint`: below `SMOOTH_WINDOW_SIZE = 3` buffered
points the raw point passes through; otherwise the mean of the last 3
buffered points (the incoming point is not part of the window). -/
def smoothPoint (buf : List Pt) (p : Pt) : Pt :=
  if buf.length < 3 then p
  else windowMean (buf.drop (buf.length - 3))

/-- One `addPointToStroke` step on the smoothing buffer. -/
def addPointToStroke (buf : List Pt) (p : Pt) : List Pt :=
  buf ++ [smoothPoint buf p]

/-- `startStroke p0` followed by `addPointToStroke` for each element of `ps`;
the result is the smoothing buffer, which equals the emitted polyline in pen
mode. -/
def captureStroke (p0 : Pt) (ps : List Pt) : List Pt :=
  List.foldl addPointToStroke [p0] ps

/-! ### Concrete instances used by counterexamples and witnesses -/

/-- A default-constructed bounds rectangle. -/
def rectA : Rect := ⟨0, 0, 100, 100⟩

/-- A freshly added object (layer 0, visible, unselected) with identity 0. -/
def objA : Obj := ⟨0, rectA, 0, true, false⟩

/-- A freshly added object with identity 1. -/
def objB : Obj := ⟨1, rectA, 0, true, false⟩

/-- A two-object page obeying the layer invariant (layers 0 and 1). -/
def pageW : List Obj := [⟨0, rectA, 0, true, false⟩, ⟨1, rectA, 1, true, false⟩]

/-- A probe point inside both objects of `pageW`. -/
def ptW : Pt := ⟨5, 5⟩

/-- A two-page document whose current page is the first page. -/
def docW : DocState :=
  { id := "d", title := "t", description := "",
    pages := [⟨"a", "A"⟩, ⟨"b", "B"⟩], current := some "a", modified := false,
    links := [], tags := [] }

/-- An empty store. -/
def dbW : DB := { docs := fun _ => none, pages := fun _ => none }

/-- A two-page document snapshot fed to `saveDocument`. -/
def sdocW : SDoc :=
  { id := "d", row := ⟨"t", "", "c", "m", "", "blob"⟩,
    pages := [⟨"p1", ⟨"d", "P1", "b1"⟩⟩, ⟨"p2", ⟨"d", "P2", "b2"⟩⟩] }

/-- A text object with a known id and content. -/
def textW : TextObject :=
  { defaultTextObject "orig-id" with content := "Hello world", selected := true }

/-! ## Theorems -/

instance instDecSortedByLayer (l : List Obj) : Decidable (SortedByLayer l) := by
  unfold SortedByLayer
  infer_instance

instance instDecSortingOp : DecidablePred SortingOp := by
  intro op
  cases op <;> unfold SortingOp <;> infer_instance

instance instDecLayersFrom : ∀ (n : Int) (l : List Obj), Decidable (LayersFrom n l)
  | _, [] => isTrue trivial
  | n, o :: t =>
    have := instDecLayersFrom (n + 1) t
    inferInstanceAs (Decidable (o.layer = n ∧ LayersFrom (n + 1) t))

/-! ### The layer sort -/

theorem insLayer_perm (o : Obj) : ∀ l : List Obj, List.Perm (insLayer o l) (o :: l)
  | [] => List.Perm.refl _
  | b :: t => by
    unfold insLayer
    by_cases h : o.layer ≤ b.layer
    · simp [h]
    · simp only [if_neg h]
      exact ((insLayer_perm o t).cons b).trans (List.Perm.swap o b t)

theorem sortObjectsByLayer_perm (l : List Obj) :
    List.Perm (sortObjectsByLayer l) l := by
  induction l with
  | nil => exact List.Perm.refl _
  | cons a t ih =>
    have h1 : sortObjectsByLayer (a :: t) = insLayer a (sortObjectsByLayer t) := rfl
    rw [h1]
    exact (insLayer_perm a (sortObjectsByLayer t)).trans (ih.cons a)

theorem mem_insLayer {a o : Obj} {l : List Obj} :
    a ∈ insLayer o l ↔ a = o ∨ a ∈ l := by
  rw [(insLayer_perm o l).mem_iff, List.mem_cons]

theorem sorted_insLayer (o : Obj) : ∀ {l : List Obj},
    SortedByLayer l → SortedByLayer (insLayer o l)
  | [], _ => by simp [insLayer, SortedByLayer]
  | b :: t, h => by
    rcases (List.pairwise_cons.mp h) with ⟨hb, ht⟩
    unfold insLayer
    by_cases hob : o.layer ≤ b.layer
    · simp only [if_pos hob]
      refine List.pairwise_cons.mpr ⟨?_, h⟩
      intro x hx
      rcases List.mem_cons.mp hx with rfl | hx
      · exact hob
      · exact le_trans hob (hb x hx)
    · simp only [if_neg hob]
      refine List.pairwise_cons.mpr ⟨?_, sorted_insLayer o ht⟩
      intro x hx
      rcases mem_insLayer.mp hx with rfl | hx
      · exact le_of_lt (lt_of_not_le hob)
      · exact hb x hx

theorem sorted_sortObjectsByLayer (l : List Obj) :
    SortedByLayer (sortObjectsByLayer l) := by
  induction l with
  | nil => exact List.Pairwise.nil
  | cons a t ih => exact sorted_insLayer a ih

/-- The executable insertion sort satisfies the `std::sort` contract; it is
the admissible implementation used to run concrete instances. -/
theorem isLayerSort_sortObjectsByLayer : IsLayerSort sortObjectsByLayer :=
  fun l => ⟨sorted_sortObjectsByLayer l, sortObjectsByLayer_perm l⟩

/-! ### Sortedness preservation for the re-sorting mutations -/

theorem sorted_applyOp_safe {sort : List Obj → List Obj}
    (hsort : IsLayerSort sort) {l : List Obj} (op : PageOp)
    (hop : SortingOp op) (h : SortedByLayer l) :
    SortedByLayer (applyOp sort l op) := by
  cases op with
  | add o => exact (hsort _).1
  | removeIdx i =>
    show SortedByLayer (removeObjectIdx l i)
    unfold removeObjectIdx
    by_cases hi : i < l.length
    · simpa [hi] using List.Pairwise.sublist (List.eraseIdx_sublist l i) h
    · simpa [hi] using h
  | remove oid =>
    show SortedByLayer (removeObject l oid)
    unfold removeObject
    split
    · exact h
    · exact List.Pairwise.sublist (List.eraseIdx_sublist l _) h
  | setLayer oid k => exact (hsort _).1
  | toFront oid => exact absurd hop (by simp [SortingOp])
  | toBack oid => exact absurd hop (by simp [SortingOp])
  | forward oid => exact absurd hop (by simp [SortingOp])
  | backward oid => exact absurd hop (by simp [SortingOp])

theorem sorted_applyOps_safe {sort : List Obj → List Obj}
    (hsort : IsLayerSort sort) : ∀ (ops : List PageOp) (l : List Obj),
    (∀ op ∈ ops, SortingOp op) → SortedByLayer l →
    SortedByLayer (applyOps sort l ops)
  | [], _, _, h => h
  | op :: ops, l, hops, h => by
    have h1 : applyOps sort l (op :: ops) = applyOps sort (applyOp sort l op) ops := rfl
    rw [h1]
    exact sorted_applyOps_safe hsort ops _
      (fun o ho => hops o (List.mem_cons_of_mem op ho))
      (sorted_applyOp_safe hsort op (hops op (List.mem_cons_self op ops)) h)

/-- C3, counterexample.  The claim quantifies over *all* of the Page
mutations, including the z-order moves.  `bringToFront` assigns layer
`size - 1` through `Object::setLayer`, which skips the `layerChanged` signal
(and hence the re-sort) when the object already carries that layer value.
Starting from the sorted page `[A(layer 1), B(layer 3)]` — reached using
only the claim's own mutations, and with every intermediate re-sort acting
on pairwise-distinct layer keys, so that every admissible `std::sort`
behaviour produces this same trace — `bringToFront A` moves `A` behind `B`
but keeps layer 1, leaving iteration order `[B(3), A(1)]` with *decreasing*
layers. -/
theorem sort_invariant_counterexample :
    applyOps sortObjectsByLayer []
        [.add objA, .setLayer 0 1, .add objB, .setLayer 1 3, .toFront 0]
          = [{ objB with layer := 3 }, { objA with layer := 1 }]
      ∧ ¬ SortedByLayer [{ objB with layer := 3 }, { objA with layer := 1 }] := by
  constructor
  · decide
  · decide

/-- C3, amended.  After any sequence of the re-sorting mutations
(`addObject`, `removeObject`, `setObjectLayer`) iteration order has
non-decreasing layer values — for every `std::sort` behaviour satisfying
the comparator contract.  Two parts of the original claim are not program
guarantees: the z-order moves (`bringToFront`, `sendToBack`, `bringForward`,
`sendBackward`) can leave the vector out of layer order when the moved
object already carries the assigned layer value (see the counterexample),
and equal-layer insertion order is *not* asserted, because `std::sort`
leaves the relative order of equal keys unspecified. -/
theorem sort_invariant_amended :
    ∀ sort : List Obj → List Obj, IsLayerSort sort →
      ∀ ops : List PageOp, (∀ op ∈ ops, SortingOp op) →
        SortedByLayer (applyOps sort [] ops) :=
  fun _ hsort ops hops => sorted_applyOps_safe hsort ops [] hops List.Pairwise.nil

/-- Witness for C3 (amended): a concrete mutation sequence made of
re-sorting operations only, run with the executable sort instance. -/
theorem sort_invariant_amended_witness :
    SortedByLayer (applyOps sortObjectsByLayer []
      [.add objB, .setLayer 1 3, .add objA, .setLayer 0 1]) :=
  sort_invariant_amended sortObjectsByLayer isLayerSort_sortObjectsByLayer
    [.add objB, .setLayer 1 3, .add objA, .setLayer 0 1] (by decide)

/-! ### Hit testing (`Page::objectAt`) -/

theorem find?_eq_some_split {p : Obj → Bool} : ∀ {l : List Obj} {o : Obj},
    l.find? p = some o →
    ∃ l₁ l₂, l = l₁ ++ o :: l₂ ∧ (∀ x ∈ l₁, p x = false) ∧ p o = true
  | [], o, h => by simp at h
  | a :: t, o, h => by
    by_cases ha : p a = true
    · rw [List.find?_cons_of_pos _ ha] at h
      have hao : a = o := Option.some_injective _ h
      subst hao
      exact ⟨[], t, rfl, by simp, ha⟩
    · rw [List.find?_cons_of_neg _ ha] at h
      rcases find?_eq_some_split h with ⟨l₁, l₂, heq, h₁, h₂⟩
      refine ⟨a :: l₁, l₂, by rw [heq]; rfl, ?_, h₂⟩
      intro x hx
      rcases List.mem_cons.mp hx with rfl | hx
      · simpa using ha
      · exact h₁ x hx

/-- C4.  On a page satisfying the layer invariant, `objectAt` never returns
an invisible object, returns `none` exactly when no visible object's bounds
contain the point, and any returned object is a visible containing object of
maximal layer (the topmost hit: the backward scan over the layer-sorted
vector is a descending-layer traversal). -/
theorem objectAt_spec (l : List Obj) (p : Pt) (hs : SortedByLayer l) :
    (objectAt l p = none ↔
      ∀ o ∈ l, o.visible = true → o.bounds.containsPt p = false)
    ∧ ∀ o, objectAt l p = some o →
        o ∈ l ∧ o.visible = true ∧ o.bounds.containsPt p = true ∧
        ∀ b ∈ l, b.visible = true → b.bounds.containsPt p = true →
          b.layer ≤ o.layer := by
  constructor
  · rw [objectAt, List.find?_eq_none]
    constructor
    · intro h o ho hv
      have := h o (List.mem_reverse.mpr ho)
      simpa [hv] using this
    · intro h o ho
      have ho' := List.mem_reverse.mp ho
      by_cases hv : o.visible = true
      · simp [hv, h o ho' hv]
      · simp [Bool.eq_false_iff.mpr hv]
  · intro o h
    rw [objectAt] at h
    rcases find?_eq_some_split h with ⟨l₁, l₂, hrev, h₁, h₂⟩
    have hvis : o.visible = true := (Bool.and_eq_true _ _).mp h₂ |>.1
    have hcon : o.bounds.containsPt p = true := (Bool.and_eq_true _ _).mp h₂ |>.2
    have hl : l = l₂.reverse ++ o :: l₁.reverse := by
      have := congrArg List.reverse hrev
      simpa [List.reverse_append] using this
    have hmem : o ∈ l := by rw [hl]; simp
    refine ⟨hmem, hvis, hcon, ?_⟩
    intro b hb hbv hbc
    rw [hl] at hb hs
    rcases List.mem_append.mp hb with hb2 | hb1
    · rcases (List.pairwise_append.mp hs) with ⟨_, _, hcross⟩
      exact hcross b hb2 o (List.mem_cons_self o _)
    · rcases List.mem_cons.mp hb1 with rfl | hb1
      · exact le_refl _
      · exfalso
        have := h₁ b (List.mem_reverse.mp hb1)
        rw [hbv, hbc] at this
        simp at this

/-- Witness for C4: on the concrete sorted two-object page `pageW`, both
parts of the hit-testing contract specialise to the probe point `ptW`. -/
theorem objectAt_spec_witness :
    ((objectAt pageW ptW = none ↔
        ∀ o ∈ pageW, o.visible = true → o.bounds.containsPt ptW = false)
      ∧ ∀ o, objectAt pageW ptW = some o →
          o ∈ pageW ∧ o.visible = true ∧ o.bounds.containsPt ptW = true ∧
          ∀ b ∈ pageW, b.visible = true → b.bounds.containsPt ptW = true →
            b.layer ≤ o.layer) :=
  objectAt_spec pageW ptW (by decide)

/-! ### Z-order moves (`bringForward` / `sendBackward`) -/

theorem findIdx?_oid_append (oid : Nat) :
    ∀ (p : List Obj) (o : Obj) (r : List Obj) (i : Nat), o.oid = oid →
      (∀ x ∈ p, ¬ x.oid = oid) →
      List.findIdx? (fun x => x.oid = oid) (p ++ o :: r) i = some (i + p.length)
  | [], o, r, i, ho, _ => by simp [List.findIdx?_cons, ho]
  | x :: p, o, r, i, ho, hp => by
    have hx : ¬ x.oid = oid := hp x (List.mem_cons_self x p)
    rw [List.cons_append, List.findIdx?_cons]
    simp only [hx, decide_eq_false, Bool.false_eq_true, if_false]
    rw [findIdx?_oid_append oid p o r (i + 1) ho
      (fun y hy => hp y (List.mem_cons_of_mem x hy))]
    have harith : i + 1 + p.length = i + (x :: p).length := by
      simp [List.length_cons]
      omega
    rw [harith]
    simp

theorem findIdxOid_append (oid : Nat) (p : List Obj) (o : Obj) (r : List Obj)
    (ho : o.oid = oid) (hp : ∀ x ∈ p, ¬ x.oid = oid) :
    findIdxOid oid (p ++ o :: r) = some p.length := by
  have := findIdx?_oid_append oid p o r 0 ho hp
  simpa [findIdxOid] using this

theorem getElem?_append_cons {α : Type} (p : List α) (o : α) (r : List α) :
    (p ++ o :: r)[p.length]? = some o := by
  rw [List.getElem?_append_right (le_refl p.length)]
  simp

theorem eraseIdx_append_cons {α : Type} (p : List α) (o : α) (r : List α) :
    (p ++ o :: r).eraseIdx p.length = p ++ r := by
  rw [List.eraseIdx_append_of_length_le (le_refl p.length)]
  simp [List.eraseIdx]

theorem insertIdx_append_left {α : Type} (a : α) (n : Nat) :
    ∀ (p r : List α), List.insertIdx (p.length + n) a (p ++ r)
      = p ++ List.insertIdx n a r
  | [], r => by simp
  | x :: p, r => by
    have h1 : (x :: p).length + n = (p.length + n) + 1 := by
      simp [List.length_cons]; omega
    rw [h1, List.cons_append, List.insertIdx_succ_cons,
      insertIdx_append_left a n p r, List.cons_append]

theorem set_append_cons {α : Type} (p : List α) (o a : α) (r : List α) :
    (p ++ o :: r).set p.length a = p ++ a :: r := by
  rw [List.set_append]
  simp

theorem layersFrom_append {n : Int} : ∀ {p r : List Obj},
    LayersFrom n (p ++ r) → LayersFrom n p ∧ LayersFrom (n + p.length) r
  | [], r, h => ⟨trivial, by simpa using h⟩
  | x :: p, r, h => by
    rcases h with ⟨hx, ht⟩
    rcases layersFrom_append ht with ⟨h1, h2⟩
    refine ⟨⟨hx, h1⟩, ?_⟩
    have : n + 1 + (p.length : Int) = n + (x :: p).length := by
      simp [List.length_cons]
      omega
    rwa [this] at h2

theorem layersFrom_mem_ge {n : Int} : ∀ {l : List Obj},
    LayersFrom n l → ∀ o ∈ l, n ≤ o.layer
  | [], _, o, ho => absurd ho (List.not_mem_nil o)
  | x :: t, h, o, ho => by
    rcases h with ⟨hx, ht⟩
    rcases List.mem_cons.mp ho with rfl | ho
    · omega
    · have := layersFrom_mem_ge ht o ho
      omega

theorem layersFrom_mem_lt {n : Int} : ∀ {l : List Obj},
    LayersFrom n l → ∀ o ∈ l, o.layer < n + l.length
  | [], _, o, ho => absurd ho (List.not_mem_nil o)
  | x :: t, h, o, ho => by
    rcases h with ⟨hx, ht⟩
    rcases List.mem_cons.mp ho with rfl | ho
    · simp [List.length_cons]
      omega
    · have := layersFrom_mem_lt ht o ho
      simp [List.length_cons]
      omega

theorem layersFrom_pairwise {n : Int} : ∀ {l : List Obj},
    LayersFrom n l → SortedByLayer l
  | [], _ => List.Pairwise.nil
  | x :: t, h => by
    rcases h with ⟨hx, ht⟩
    refine List.pairwise_cons.mpr ⟨?_, layersFrom_pairwise ht⟩
    intro y hy
    have := layersFrom_mem_ge ht y hy
    omega

theorem layersFrom_strict_pairwise {n : Int} : ∀ {l : List Obj},
    LayersFrom n l → List.Pairwise (fun a b => a.layer < b.layer) l
  | [], _ => List.Pairwise.nil
  | x :: t, h => by
    rcases h with ⟨hx, ht⟩
    refine List.pairwise_cons.mpr ⟨?_, layersFrom_strict_pairwise ht⟩
    intro y hy
    have := layersFrom_mem_ge ht y hy
    omega

/-- A sorted permutation of a strictly sorted list is that list: distinct
layer keys admit exactly one sorted arrangement. -/
theorem sorted_perm_strict_unique : ∀ (q l : List Obj),
    List.Perm l q → SortedByLayer l →
    List.Pairwise (fun a b => a.layer < b.layer) q → l = q
  | [], l, hperm, _, _ => hperm.eq_nil
  | b :: q', l, hperm, hsort, hq => by
    cases l with
    | nil =>
      have h0 := hperm.symm.eq_nil
      simp at h0
    | cons a t =>
      rcases List.pairwise_cons.mp hsort with ⟨ha_le, hts⟩
      rcases List.pairwise_cons.mp hq with ⟨hb_lt, hq's⟩
      have ha_mem : a ∈ b :: q' := hperm.mem_iff.mp (List.mem_cons_self a t)
      have hb_mem : b ∈ a :: t := hperm.mem_iff.mpr (List.mem_cons_self b q')
      have h1 : a.layer ≤ b.layer := by
        rcases List.mem_cons.mp hb_mem with heq | hbt
        · rw [heq]
        · exact ha_le b hbt
      have hab : a = b := by
        rcases List.mem_cons.mp ha_mem with h2 | h2
        · exact h2
        · exact absurd (hb_lt a h2) (by omega)
      subst hab
      rw [sorted_perm_strict_unique q' t hperm.cons_inv hts hq's]

/-- A sorted permutation of a list whose only equal-layer elements are the
adjacent pair `X, Y` is that list with the pair in one of its two orders. -/
theorem sorted_perm_cons_unique (Z : Obj) (q t : List Obj) (n : Int)
    (hZ : Z.layer = n) (hq_gt : ∀ o ∈ q, n < o.layer)
    (hq_st : List.Pairwise (fun a b => a.layer < b.layer) q)
    (hperm : List.Perm t (Z :: q)) (hsort : SortedByLayer t) :
    t = Z :: q := by
  cases t with
  | nil =>
    have h0 := hperm.symm.eq_nil
    simp at h0
  | cons h2 t2 =>
    rcases List.pairwise_cons.mp hsort with ⟨hh2_le, ht2s⟩
    have hZ_mem : Z ∈ h2 :: t2 := hperm.mem_iff.mpr (List.mem_cons_self Z q)
    have hh2_le_n : h2.layer ≤ n := by
      rcases List.mem_cons.mp hZ_mem with heq | hZt
      · rw [heq] at hZ
        omega
      · have := hh2_le Z hZt
        omega
    have hh2_mem : h2 ∈ Z :: q := hperm.mem_iff.mp (List.mem_cons_self h2 t2)
    have hh2Z : h2 = Z := by
      rcases List.mem_cons.mp hh2_mem with h3 | h3
      · exact h3
      · exact absurd (hq_gt h2 h3) (by omega)
    subst hh2Z
    rw [sorted_perm_strict_unique q t2 hperm.cons_inv ht2s hq_st]

theorem sorted_perm_mid_pair : ∀ (p : List Obj) (X Y : Obj) (q l' : List Obj)
    (n : Int),
    (∀ o ∈ p, o.layer < n) →
    List.Pairwise (fun a b => a.layer < b.layer) p →
    X.layer = n → Y.layer = n →
    (∀ o ∈ q, n < o.layer) →
    List.Pairwise (fun a b => a.layer < b.layer) q →
    List.Perm l' (p ++ X :: Y :: q) → SortedByLayer l' →
    l' = p ++ X :: Y :: q ∨ l' = p ++ Y :: X :: q
  | [], X, Y, q, l', n, _, _, hX, hY, hq_gt, hq_st, hperm, hsort => by
    simp only [List.nil_append] at hperm ⊢
    cases l' with
    | nil =>
      have h0 := hperm.symm.eq_nil
      simp at h0
    | cons h t =>
      rcases List.pairwise_cons.mp hsort with ⟨hh_le, hts⟩
      have hX_mem : X ∈ h :: t := hperm.mem_iff.mpr (by simp)
      have hh_le_n : h.layer ≤ n := by
        rcases List.mem_cons.mp hX_mem with heq | hXt
        · rw [heq] at hX
          omega
        · have := hh_le X hXt
          omega
      have hh_mem : h ∈ X :: Y :: q := hperm.mem_iff.mp (List.mem_cons_self h t)
      rcases List.mem_cons.mp hh_mem with rfl | hh2
      · left
        rw [sorted_perm_cons_unique Y q t n hY hq_gt hq_st hperm.cons_inv hts]
      · rcases List.mem_cons.mp hh2 with rfl | hhq
        · right
          have ht_perm : List.Perm t (X :: q) :=
            (hperm.trans (List.Perm.swap h X q)).cons_inv
          rw [sorted_perm_cons_unique X q t n hX hq_gt hq_st ht_perm hts]
        · exact absurd (hq_gt h hhq) (by omega)
  | x :: p', X, Y, q, l', n, hp_lt, hp_st, hX, hY, hq_gt, hq_st, hperm, hsort => by
    rcases List.pairwise_cons.mp hp_st with ⟨hx_lt, hp'_st⟩
    cases l' with
    | nil =>
      have h0 := hperm.symm.eq_nil
      simp at h0
    | cons h t =>
      rcases List.pairwise_cons.mp hsort with ⟨hh_le, hts⟩
      have hx_mem : x ∈ h :: t := hperm.mem_iff.mpr (by simp)
      have hh_le_x : h.layer ≤ x.layer := by
        rcases List.mem_cons.mp hx_mem with heq | hxt
        · rw [heq]
        · exact hh_le x hxt
      have hx_n : x.layer < n := hp_lt x (List.mem_cons_self x p')
      have hh_mem : h ∈ (x :: p') ++ X :: Y :: q :=
        hperm.mem_iff.mp (List.mem_cons_self h t)
      have hhx : h = x := by
        rcases List.mem_cons.mp hh_mem with h1 | h1
        · exact h1
        · exfalso
          rcases List.mem_append.mp h1 with h2 | h2
          · exact absurd (hx_lt h h2) (by omega)
          · rcases List.mem_cons.mp h2 with rfl | h3
            · omega
            · rcases List.mem_cons.mp h3 with rfl | h4
              · omega
              · have := hq_gt h h4
                omega
      subst hhx
      have ht_perm : List.Perm t (p' ++ X :: Y :: q) := hperm.cons_inv
      rcases sorted_perm_mid_pair p' X Y q t n
          (fun o ho => hp_lt o (List.mem_cons_of_mem _ ho)) hp'_st hX hY
          hq_gt hq_st ht_perm hts with h1 | h1
      · left
        rw [h1, List.cons_append]
      · right
        rw [h1, List.cons_append]

/-- `bringForward` on an object that is not last (`layer = position` state):
all steps up to the triggered re-sort are deterministic, so the call reduces
to one `std::sort` invocation on the moved-and-relabelled vector. -/
theorem bringForward_eq_sort (sort : List Obj → List Obj)
    (p q : List Obj) (A B : Obj)
    (hlay : LayersFrom 0 (p ++ A :: B :: q))
    (hA : ∀ x ∈ p, ¬ x.oid = A.oid) (hBA : ¬ B.oid = A.oid) :
    bringForward sort (p ++ A :: B :: q) A.oid
      = sort (p ++ B :: { A with layer := (p.length : Int) + 1 } :: q) := by
  rcases layersFrom_append hlay with ⟨hp, hABq⟩
  rcases hABq with ⟨hAlay, hBq⟩
  have hfind : findIdxOid A.oid (p ++ A :: B :: q) = some p.length :=
    findIdxOid_append A.oid p A (B :: q) rfl hA
  have hlen : (p ++ A :: B :: q).length = p.length + 2 + q.length := by
    simp [List.length_append, List.length_cons]
    omega
  have hcond : p.length + 1 < (p ++ A :: B :: q).length := by
    rw [hlen]; omega
  have hget : (p ++ A :: B :: q)[p.length]? = some A := getElem?_append_cons p A (B :: q)
  have hmove : listMove (p ++ A :: B :: q) p.length (p.length + 1)
      = p ++ B :: A :: q := by
    rw [listMove, hget]
    simp only
    rw [eraseIdx_append_cons p A (B :: q)]
    rw [show List.insertIdx (p.length + 1) A (p ++ B :: q)
        = p ++ List.insertIdx 1 A (B :: q) from insertIdx_append_left A 1 p (B :: q)]
    rfl
  have hfind2 : findIdxOid A.oid (p ++ B :: A :: q) = some (p.length + 1) := by
    have h2 : p ++ B :: A :: q = (p ++ [B]) ++ A :: q := by simp
    rw [h2, findIdxOid_append A.oid (p ++ [B]) A q rfl ?_]
    · simp
    · intro x hx
      rcases List.mem_append.mp hx with hx | hx
      · exact hA x hx
      · rcases List.mem_cons.mp hx with rfl | hx
        · exact hBA
        · exact absurd hx (List.not_mem_nil x)
  have hget2 : (p ++ B :: A :: q)[p.length + 1]? = some A := by
    have h2 : p ++ B :: A :: q = (p ++ [B]) ++ A :: q := by simp
    have h3 : p.length + 1 = (p ++ [B]).length := by simp
    rw [h2, h3]
    exact getElem?_append_cons (p ++ [B]) A q
  have hset : (p ++ B :: A :: q).set (p.length + 1) { A with layer := (p.length : Int) + 1 }
      = p ++ B :: { A with layer := (p.length : Int) + 1 } :: q := by
    have h2 : p ++ B :: A :: q = (p ++ [B]) ++ A :: q := by simp
    have h3 : p.length + 1 = (p ++ [B]).length := by simp
    rw [h2, h3, set_append_cons (p ++ [B]) A _ q]
    simp
  rw [bringForward, hfind]
  simp only [hcond, if_pos, hmove]
  rw [setLayerNotify, hfind2]
  simp only [hget2]
  rw [if_neg (by rw [hAlay]; omega)]
  rw [hset]

/-- `bringForward` on the last object is a no-op (no re-sort runs). -/
theorem bringForward_last_noop (sort : List Obj → List Obj)
    (p : List Obj) (A : Obj) (hA : ∀ x ∈ p, ¬ x.oid = A.oid) :
    bringForward sort (p ++ [A]) A.oid = p ++ [A] := by
  have hfind : findIdxOid A.oid (p ++ [A]) = some p.length :=
    findIdxOid_append A.oid p A [] rfl hA
  rw [bringForward, hfind]
  have hlen : (p ++ [A]).length = p.length + 1 := by simp
  have hc : ¬ (p.length + 1 < (p ++ [A]).length) := by rw [hlen]; omega
  simp only [if_neg hc]

/-- `sendBackward` on an object that is not first (`layer = position` state)
reduces to one `std::sort` invocation on the moved-and-relabelled vector. -/
theorem sendBackward_eq_sort (sort : List Obj → List Obj)
    (p q : List Obj) (A B : Obj)
    (hlay : LayersFrom 0 (p ++ A :: B :: q))
    (hB : ∀ x ∈ p, ¬ x.oid = B.oid) (hAB : ¬ A.oid = B.oid) :
    sendBackward sort (p ++ A :: B :: q) B.oid
      = sort (p ++ { B with layer := (p.length : Int) } :: A :: q) := by
  rcases layersFrom_append hlay with ⟨hp, hABq⟩
  rcases hABq with ⟨hAlay, hBq⟩
  rcases hBq with ⟨hBlay, hq⟩
  have hsplit : p ++ A :: B :: q = (p ++ [A]) ++ B :: q := by simp
  have hfind : findIdxOid B.oid (p ++ A :: B :: q) = some (p.length + 1) := by
    rw [hsplit, findIdxOid_append B.oid (p ++ [A]) B q rfl ?_]
    · simp
    · intro x hx
      rcases List.mem_append.mp hx with hx | hx
      · exact hB x hx
      · rcases List.mem_cons.mp hx with rfl | hx
        · exact hAB
        · exact absurd hx (List.not_mem_nil x)
  have hget : (p ++ A :: B :: q)[p.length + 1]? = some B := by
    have h3 : p.length + 1 = (p ++ [A]).length := by simp
    rw [hsplit, h3]
    exact getElem?_append_cons (p ++ [A]) B q
  have hmove : listMove (p ++ A :: B :: q) (p.length + 1) p.length
      = p ++ B :: A :: q := by
    rw [listMove, hget]
    simp only
    have herase : (p ++ A :: B :: q).eraseIdx (p.length + 1) = p ++ A :: q := by
      have h3 : p.length + 1 = (p ++ [A]).length := by simp
      rw [hsplit, h3, eraseIdx_append_cons (p ++ [A]) B q]
      simp
    rw [herase]
    have hins : List.insertIdx p.length B (p ++ A :: q) = p ++ B :: A :: q := by
      have h4 := insertIdx_append_left B 0 p (A :: q)
      simpa using h4
    simpa using hins
  have hfind2 : findIdxOid B.oid (p ++ B :: A :: q) = some p.length :=
    findIdxOid_append B.oid p B (A :: q) rfl hB
  have hget2 : (p ++ B :: A :: q)[p.length]? = some B := getElem?_append_cons p B (A :: q)
  have hset : (p ++ B :: A :: q).set p.length { B with layer := (p.length : Int) }
      = p ++ { B with layer := (p.length : Int) } :: A :: q :=
    set_append_cons p B _ (A :: q)
  rw [sendBackward, hfind]
  simp only [if_pos (Nat.succ_pos p.length), Nat.add_sub_cancel, hmove]
  rw [show (((p.length + 1 : Nat) : Int) - 1) = (p.length : Int) by push_cast; omega]
  rw [setLayerNotify, hfind2]
  simp only [hget2]
  rw [if_neg (by rw [hBlay]; omega)]
  rw [hset]

/-- `sendBackward` on the first object is a no-op (no re-sort runs). -/
theorem sendBackward_first_noop (sort : List Obj → List Obj)
    (A : Obj) (q : List Obj) :
    sendBackward sort (A :: q) A.oid = A :: q := by
  have hfind : findIdxOid A.oid (A :: q) = some 0 := by
    simp [findIdxOid, List.findIdx?_cons]
  rw [sendBackward, hfind]
  simp

/-- `bringForward`, not-last case, under any admissible `std::sort`: the
object's layer becomes its old index + 1, nothing else changes content, and
the object and its old neighbour end at the two adjacent positions — in
either order, since they now share a layer value whose relative order the
sort leaves unspecified. -/
theorem bringForward_pair (sort : List Obj → List Obj)
    (hsort : IsLayerSort sort) (p q : List Obj) (A B : Obj)
    (hlay : LayersFrom 0 (p ++ A :: B :: q))
    (hA : ∀ x ∈ p, ¬ x.oid = A.oid) (hBA : ¬ B.oid = A.oid) :
    bringForward sort (p ++ A :: B :: q) A.oid
        = p ++ B :: { A with layer := (p.length : Int) + 1 } :: q
      ∨ bringForward sort (p ++ A :: B :: q) A.oid
        = p ++ { A with layer := (p.length : Int) + 1 } :: B :: q := by
  rw [bringForward_eq_sort sort p q A B hlay hA hBA]
  rcases layersFrom_append hlay with ⟨hp, hABq⟩
  rcases hABq with ⟨hAlay, hBq⟩
  rcases hBq with ⟨hBlay, hq⟩
  refine sorted_perm_mid_pair p B { A with layer := (p.length : Int) + 1 } q _
      ((p.length : Int) + 1) ?_ (layersFrom_strict_pairwise hp) ?_ rfl ?_
      (layersFrom_strict_pairwise hq) ?_ ?_
  · intro o ho
    have := layersFrom_mem_lt hp o ho
    omega
  · omega
  · intro o ho
    have := layersFrom_mem_ge hq o ho
    omega
  · exact (hsort _).2
  · exact (hsort _).1

/-- `sendBackward`, not-first case, under any admissible `std::sort`: the
object's layer becomes its old index - 1, and it ends next to its old
neighbour in either order. -/
theorem sendBackward_pair (sort : List Obj → List Obj)
    (hsort : IsLayerSort sort) (p q : List Obj) (A B : Obj)
    (hlay : LayersFrom 0 (p ++ A :: B :: q))
    (hB : ∀ x ∈ p, ¬ x.oid = B.oid) (hAB : ¬ A.oid = B.oid) :
    sendBackward sort (p ++ A :: B :: q) B.oid
        = p ++ { B with layer := (p.length : Int) } :: A :: q
      ∨ sendBackward sort (p ++ A :: B :: q) B.oid
        = p ++ A :: { B with layer := (p.length : Int) } :: q := by
  rw [sendBackward_eq_sort sort p q A B hlay hB hAB]
  rcases layersFrom_append hlay with ⟨hp, hABq⟩
  rcases hABq with ⟨hAlay, hBq⟩
  rcases hBq with ⟨hBlay, hq⟩
  refine sorted_perm_mid_pair p { B with layer := (p.length : Int) } A q _
      ((p.length : Int)) ?_ (layersFrom_strict_pairwise hp) rfl ?_ ?_
      (layersFrom_strict_pairwise hq) ?_ ?_
  · intro o ho
    have := layersFrom_mem_lt hp o ho
    omega
  · omega
  · intro o ho
    have := layersFrom_mem_ge hq o ho
    omega
  · exact (hsort _).2
  · exact (hsort _).1

/-- C5, counterexample.  On the sorted page `[A(layer 5), B(layer 7)]`
(reached through the page's own mutations, every intermediate re-sort
acting on pairwise-distinct layer keys, so every admissible `std::sort`
behaviour produces this same trace), `A` is at index 0 and is not last, so
the claim requires `bringForward A` to swap `A` with `B`.  Instead, the
code moves `A` behind `B` but then assigns layer `index + 1 = 1`; since
`1 ≠ 5` the `layerChanged` re-sort fires — on the distinct keys 1 and 7 —
and puts `A` (layer 1) back in front of `B` (layer 7): the iteration order
is unchanged and `A`'s layer has been silently rewritten from 5 to 1. -/
theorem neighbor_swap_counterexample :
    applyOps sortObjectsByLayer []
        [.add objA, .setLayer 0 5, .add objB, .setLayer 1 7]
          = [{ objA with layer := 5 }, { objB with layer := 7 }]
      ∧ bringForward sortObjectsByLayer
          [{ objA with layer := 5 }, { objB with layer := 7 }] 0
          = [{ objA with layer := 1 }, { objB with layer := 7 }]
      ∧ (bringForward sortObjectsByLayer
          [{ objA with layer := 5 }, { objB with layer := 7 }] 0).map
            (fun o => o.oid) ≠ [1, 0] := by
  refine ⟨by decide, by decide, by decide⟩

/-- C5, amended.  When the page's layer values equal the vector positions
`0 .. n-1` (the state the code's own layer assignments produce) and object
identities are unique as pointers are, then for every `std::sort` behaviour
satisfying the comparator contract: `bringForward` assigns the object its
old neighbour's position as its new layer value and the two objects end at
the same two adjacent positions — in either order, not necessarily swapped,
because they then share a layer value whose relative order `std::sort`
leaves unspecified — with every other object unmoved; on the last object it
is a no-op leaving order and layers unchanged.  Symmetrically for
`sendBackward`, with a no-op on the first object.  Outside the
layers-equal-positions state the triggered re-sort can undo the move
entirely (see the counterexample). -/
theorem neighbor_swap_amended :
    (∀ sort : List Obj → List Obj, IsLayerSort sort →
      ∀ (p q : List Obj) (A B : Obj), LayersFrom 0 (p ++ A :: B :: q) →
        (∀ x ∈ p, ¬ x.oid = A.oid) → ¬ B.oid = A.oid →
        bringForward sort (p ++ A :: B :: q) A.oid
            = p ++ B :: { A with layer := (p.length : Int) + 1 } :: q
          ∨ bringForward sort (p ++ A :: B :: q) A.oid
            = p ++ { A with layer := (p.length : Int) + 1 } :: B :: q)
    ∧ (∀ (sort : List Obj → List Obj) (p : List Obj) (A : Obj),
        (∀ x ∈ p, ¬ x.oid = A.oid) →
        bringForward sort (p ++ [A]) A.oid = p ++ [A])
    ∧ (∀ sort : List Obj → List Obj, IsLayerSort sort →
        ∀ (p q : List Obj) (A B : Obj), LayersFrom 0 (p ++ A :: B :: q) →
          (∀ x ∈ p, ¬ x.oid = B.oid) → ¬ A.oid = B.oid →
          sendBackward sort (p ++ A :: B :: q) B.oid
              = p ++ { B with layer := (p.length : Int) } :: A :: q
            ∨ sendBackward sort (p ++ A :: B :: q) B.oid
              = p ++ A :: { B with layer := (p.length : Int) } :: q)
    ∧ (∀ (sort : List Obj → List Obj) (A : Obj) (q : List Obj),
        sendBackward sort (A :: q) A.oid = A :: q) :=
  ⟨fun sort hsort p q A B h1 h2 h3 => bringForward_pair sort hsort p q A B h1 h2 h3,
    fun sort p A h => bringForward_last_noop sort p A h,
    fun sort hsort p q A B h1 h2 h3 => sendBackward_pair sort hsort p q A B h1 h2 h3,
    fun sort A q => sendBackward_first_noop sort A q⟩

/-- Witness for C5 (amended): on the position-layered two-object page
`[A(0), B(1)]`, run with the executable sort instance, `bringForward A`
relabels `A` to layer 1 and leaves the pair adjacent in one of the two
orders; `bringForward B` (last) and `sendBackward A` (first) are no-ops;
`sendBackward B` relabels `B` to layer 0 with the pair adjacent in one of
the two orders. -/
theorem neighbor_swap_amended_witness :
    (bringForward sortObjectsByLayer [objA, { objB with layer := 1 }] 0
        = [{ objB with layer := 1 }, { objA with layer := 1 }]
      ∨ bringForward sortObjectsByLayer [objA, { objB with layer := 1 }] 0
        = [{ objA with layer := 1 }, { objB with layer := 1 }])
      ∧ bringForward sortObjectsByLayer [objA, { objB with layer := 1 }] 1
          = [objA, { objB with layer := 1 }]
      ∧ (sendBackward sortObjectsByLayer [objA, { objB with layer := 1 }] 1
          = [{ objB with layer := 0 }, objA]
        ∨ sendBackward sortObjectsByLayer [objA, { objB with layer := 1 }] 1
          = [objA, { objB with layer := 0 }])
      ∧ sendBackward sortObjectsByLayer [objA, { objB with layer := 1 }] 0
          = [objA, { objB with layer := 1 }] :=
  ⟨neighbor_swap_amended.1 sortObjectsByLayer isLayerSort_sortObjectsByLayer
      [] [] objA { objB with layer := 1 } (by decide) (by decide) (by decide),
    neighbor_swap_amended.2.1 sortObjectsByLayer [objA] { objB with layer := 1 }
      (by decide),
    neighbor_swap_amended.2.2.1 sortObjectsByLayer isLayerSort_sortObjectsByLayer
      [] [] objA { objB with layer := 1 } (by decide) (by decide) (by decide),
    neighbor_swap_amended.2.2.2 sortObjectsByLayer objA [{ objB with layer := 1 }]⟩

/-! ### Removing the current page (`Document::removePage`) -/

theorem findIdx?_acc_split {α : Type} {pred : α → Bool} :
    ∀ (l : List α) (acc i : Nat), List.findIdx? pred l acc = some i →
      ∃ l₁ x l₂, l = l₁ ++ x :: l₂ ∧ acc + l₁.length = i ∧ pred x = true
        ∧ ∀ y ∈ l₁, pred y = false
  | [], acc, i, h => by simp [List.findIdx?_nil] at h
  | a :: t, acc, i, h => by
    rw [List.findIdx?_cons] at h
    by_cases ha : pred a = true
    · rw [if_pos ha] at h
      have hacc : acc = i := Option.some_injective _ h
      exact ⟨[], a, t, rfl, by simpa using hacc, ha, by simp⟩
    · rw [if_neg ha] at h
      rcases findIdx?_acc_split t (acc + 1) i h with ⟨l₁, x, l₂, rfl, hlen, hx, hall⟩
      refine ⟨a :: l₁, x, l₂, rfl, ?_, hx, ?_⟩
      · simp only [List.length_cons]
        omega
      · intro y hy
        rcases List.mem_cons.mp hy with rfl | hy
        · simpa using ha
        · exact hall y hy

theorem findIdx?_split {α : Type} {pred : α → Bool} {l : List α} {i : Nat}
    (h : List.findIdx? pred l = some i) :
    ∃ l₁ x l₂, l = l₁ ++ x :: l₂ ∧ l₁.length = i ∧ pred x = true
      ∧ ∀ y ∈ l₁, pred y = false := by
  rcases findIdx?_acc_split l 0 i h with ⟨l₁, x, l₂, heq, hlen, hx, hall⟩
  exact ⟨l₁, x, l₂, heq, by omega, hx, hall⟩

theorem findIdx?_lt_length {α : Type} {pred : α → Bool} {l : List α} {i : Nat}
    (h : List.findIdx? pred l = some i) : i < l.length := by
  rcases findIdx?_split h with ⟨l₁, x, l₂, rfl, rfl, _, _⟩
  simp [List.length_append, List.length_cons]

/-- C7, counterexample.  With two pages `["a", "b"]` and current page `"a"`
(index 0), removing `"a"` leaves the collection non-empty, so the claim
requires the new current page to be "the page previously at index i-1" — but
no such page exists at `i = 0` (under saturating arithmetic it would be the
removed page itself).  The code instead selects `"b"`, the page previously
at index 1, i.e. the *next* page. -/
theorem removePage_current_counterexample :
    (removePage docW "a").pages = [⟨"b", "B"⟩]
      ∧ (removePage docW "a").current = some "b"
      ∧ ¬ ((removePage docW "a").current = none
            ∨ (removePage docW "a").current = some "a") := by
  refine ⟨by decide, by decide, by decide⟩

/-- C7, amended.  Removing the current page at index `i` selects the page
previously at index `i - 1` when `i ≥ 1`; when `i = 0` and other pages
remain it selects the page previously at index 1 (the new first page — the
next page, not a previous one); when the collection becomes empty the
current page becomes null.  Removing a page that is not current leaves the
current page unchanged. -/
theorem removePage_current_amended (d : DocState) (pid : String) (i : Nat)
    (hidx : d.pages.findIdx? (fun pg => pg.pid = pid) = some i) :
    (removePage d pid).pages = d.pages.eraseIdx i
      ∧ (d.current = some pid → 1 ≤ i →
          (removePage d pid).current = (d.pages[i - 1]?).map (fun pg => pg.pid))
      ∧ (d.current = some pid → i = 0 → 2 ≤ d.pages.length →
          (removePage d pid).current = (d.pages[1]?).map (fun pg => pg.pid))
      ∧ (d.current = some pid → d.pages.length = 1 →
          (removePage d pid).current = none)
      ∧ (¬ d.current = some pid → (removePage d pid).current = d.current) := by
  have hlt : i < d.pages.length := findIdx?_lt_length hidx
  have hlen : (d.pages.eraseIdx i).length = d.pages.length - 1 := by
    rw [List.length_eraseIdx]
    simp [hlt]
  rw [removePage, hidx]
  refine ⟨rfl, ?_, ?_, ?_, ?_⟩
  · intro hcur hi
    simp only [if_pos hcur]
    have hne : (d.pages.eraseIdx i).isEmpty = false := by
      rw [List.isEmpty_eq_false, ← List.length_pos]
      omega
    simp only [hne, Bool.false_eq_true, if_false]
    rw [List.getElem?_eraseIdx, if_pos (by omega)]
  · intro hcur hi hlen2
    subst hi
    simp only [if_pos hcur]
    have hne : (d.pages.eraseIdx 0).isEmpty = false := by
      rw [List.isEmpty_eq_false, ← List.length_pos]
      omega
    simp only [hne, Bool.false_eq_true, if_false]
    rw [List.getElem?_eraseIdx]
    simp
  · intro hcur hlen1
    simp only [if_pos hcur]
    have hi0 : i = 0 := by omega
    subst hi0
    have hemp : (d.pages.eraseIdx 0).isEmpty = true := by
      rw [List.isEmpty_iff, ← List.length_eq_zero]
      omega
    rw [if_pos hemp]
  · intro hcur
    simp only [if_neg hcur]

/-- Witness for C7 (amended): removing current page `"a"` (index 0) of the
two-page document `docW` erases it and selects the page previously at
index 1. -/
theorem removePage_current_amended_witness :
    docW.pages.findIdx? (fun pg => pg.pid = "a") = some 0
      ∧ (removePage docW "a").pages = docW.pages.eraseIdx 0
      ∧ (removePage docW "a").current = (docW.pages[1]?).map (fun pg => pg.pid) :=
  ⟨by decide, (removePage_current_amended docW "a" 0 (by decide)).1,
    (removePage_current_amended docW "a" 0 (by decide)).2.2.1 rfl rfl (by decide)⟩

/-! ### Scaling (`Object::scale`) -/

theorem center_coord_preserved (c n : Int) (hn : 0 ≤ n) (hodd : n % 2 = 1) :
    Int.tdiv (2 * (c - Int.tdiv n 2) + n - 1) 2 = c := by
  have h2 : n.tdiv 2 = n / 2 := Int.tdiv_eq_ediv hn (by omega)
  have h4 : 2 * (c - Int.tdiv n 2) + n - 1 = 2 * c := by
    rw [h2]
    omega
  rw [h4]
  exact Int.mul_tdiv_cancel_left c (by norm_num)

/-- C6, counterexample to center preservation.  `scale(1.0)` on bounds
`(0, 0, 100, 100)` moves the rectangle to `(-1, -1, 100, 100)`: the integer
center `(49, 49)` becomes `(48, 48)`, so scaling does not leave the bounds'
center point unchanged. -/
theorem scale_center_counterexample :
    Rect.scale ⟨0, 0, 100, 100⟩ 1 = ⟨-1, -1, 100, 100⟩
      ∧ Rect.center (Rect.scale ⟨0, 0, 100, 100⟩ 1) = ⟨48, 48⟩
      ∧ Rect.center ⟨0, 0, 100, 100⟩ = ⟨49, 49⟩
      ∧ (⟨48, 48⟩ : Pt) ≠ ⟨49, 49⟩ := by
  have h1 : Rect.scale ⟨0, 0, 100, 100⟩ 1 = ⟨-1, -1, 100, 100⟩ := by
    norm_num [Rect.scale, Rect.center, truncQ]
    decide
  refine ⟨h1, by rw [h1]; decide, by decide, by decide⟩

/-- C6, amended.  `scale(f)` multiplies each dimension by `f` truncating
toward zero with no clamping (zero or negative results are stored as-is),
and re-anchors the rectangle at `center - (newW/2, newH/2)` where `center`
is Qt's integer center `((2x+w-1)/2, (2y+h-1)/2)`.  The integer center is
preserved whenever the new dimension is odd and non-negative; it can drift
(by one unit toward the origin per axis) when the new dimension is even —
already for the identity factor 1 (see the counterexample). -/
theorem scale_amended (r : Rect) (f : ℚ) :
    (r.scale f).w = truncQ ((r.w : ℚ) * f)
      ∧ (r.scale f).h = truncQ ((r.h : ℚ) * f)
      ∧ (0 ≤ truncQ ((r.w : ℚ) * f) → truncQ ((r.w : ℚ) * f) % 2 = 1 →
          (r.scale f).center.x = r.center.x)
      ∧ (0 ≤ truncQ ((r.h : ℚ) * f) → truncQ ((r.h : ℚ) * f) % 2 = 1 →
          (r.scale f).center.y = r.center.y) := by
  refine ⟨rfl, rfl, ?_, ?_⟩
  · intro hn hodd
    show Int.tdiv
        (2 * (r.center.x - Int.tdiv (truncQ ((r.w : ℚ) * f)) 2)
          + truncQ ((r.w : ℚ) * f) - 1) 2 = r.center.x
    exact center_coord_preserved r.center.x _ hn hodd
  · intro hn hodd
    show Int.tdiv
        (2 * (r.center.y - Int.tdiv (truncQ ((r.h : ℚ) * f)) 2)
          + truncQ ((r.h : ℚ) * f) - 1) 2 = r.center.y
    exact center_coord_preserved r.center.y _ hn hodd

/-- Witness for C6 (amended): scaling `(0, 0, 3, 3)` by 1 gives odd
dimensions 3, and the integer center is preserved on both axes. -/
theorem scale_amended_witness :
    (0 ≤ truncQ ((((⟨0, 0, 3, 3⟩ : Rect).w : Int) : ℚ) * 1)
        ∧ truncQ ((((⟨0, 0, 3, 3⟩ : Rect).w : Int) : ℚ) * 1) % 2 = 1)
      ∧ (Rect.scale ⟨0, 0, 3, 3⟩ 1).center.x = (Rect.center ⟨0, 0, 3, 3⟩).x
      ∧ (Rect.scale ⟨0, 0, 3, 3⟩ 1).center.y = (Rect.center ⟨0, 0, 3, 3⟩).y :=
  ⟨⟨by norm_num [truncQ], by norm_num [truncQ]⟩,
    (scale_amended ⟨0, 0, 3, 3⟩ 1).2.2.1 (by norm_num [truncQ]) (by norm_num [truncQ]),
    (scale_amended ⟨0, 0, 3, 3⟩ 1).2.2.2 (by norm_num [truncQ]) (by norm_num [truncQ])⟩

/-! ### Transactional save (`Storage::saveDocument`) -/

theorem savePagesLoop_fail :
    ∀ (ps : List SPage) (pending : DB) (pageOk : Nat → Bool) (n : Nat),
      (∃ j, j < ps.length ∧ pageOk (n + j) = false) →
      savePagesLoop pending ps pageOk n = none
  | [], _, _, _, h => by
    rcases h with ⟨j, hj, _⟩
    simp at hj
  | pg :: rest, pending, pageOk, n, h => by
    rw [savePagesLoop]
    by_cases hn : pageOk n = true
    · rw [if_pos hn]
      rcases h with ⟨j, hj, hfail⟩
      cases j with
      | zero =>
        rw [Nat.add_zero] at hfail
        rw [hfail] at hn
        cases hn
      | succ j' =>
        refine savePagesLoop_fail rest _ pageOk (n + 1) ⟨j', ?_, ?_⟩
        · simp only [List.length_cons] at hj
          omega
        · rw [show n + 1 + j' = n + (j' + 1) by omega]
          exact hfail
    · rw [if_neg hn]

theorem savePagesLoop_success :
    ∀ (ps : List SPage) (pending : DB) (pageOk : Nat → Bool) (n : Nat),
      (∀ j, j < ps.length → pageOk (n + j) = true) →
      savePagesLoop pending ps pageOk n
        = some (ps.foldl (fun s pg => upsertPage s pg.id pg.row) pending)
  | [], _, _, _, _ => rfl
  | pg :: rest, pending, pageOk, n, h => by
    rw [savePagesLoop, if_pos (by simpa using h 0 (by simp))]
    rw [savePagesLoop_success rest _ pageOk (n + 1) ?_]
    · rfl
    · intro j hj
      rw [show n + 1 + j = n + (j + 1) by omega]
      refine h (j + 1) ?_
      simp only [List.length_cons]
      omega

/-- C2.  `saveDocument` is atomic on an open store: if the document-row
upsert fails, or the upsert of any page fails, the call reports failure and
the resulting store equals the store before the call (both the document row
and every page row) — no partial save is observable.  When every statement
succeeds, the commit installs the document row and all page rows. -/
theorem saveDocument_atomic (db : DB) (d : SDoc) (docOk : Bool)
    (pageOk : Nat → Bool) :
    ((docOk = false ∨ ∃ j, j < d.pages.length ∧ pageOk j = false) →
      saveDocument db d true docOk pageOk = (false, db))
    ∧ ((docOk = true ∧ ∀ j, j < d.pages.length → pageOk j = true) →
      saveDocument db d true docOk pageOk
        = (true, d.pages.foldl (fun s pg => upsertPage s pg.id pg.row)
            (upsertDoc db d.id d.row))) := by
  constructor
  · intro h
    rcases h with hdoc | hpage
    · subst hdoc
      rfl
    · cases docOk with
      | false => rfl
      | true =>
        show (match savePagesLoop (upsertDoc db d.id d.row) d.pages pageOk 0 with
          | none => (false, db)
          | some p => (true, p)) = (false, db)
        rw [savePagesLoop_fail d.pages (upsertDoc db d.id d.row) pageOk 0
          (by simpa using hpage)]
  · rintro ⟨hdoc, hpages⟩
    subst hdoc
    show (match savePagesLoop (upsertDoc db d.id d.row) d.pages pageOk 0 with
      | none => (false, db)
      | some p => (true, p))
        = (true, d.pages.foldl (fun s pg => upsertPage s pg.id pg.row)
            (upsertDoc db d.id d.row))
    rw [savePagesLoop_success d.pages (upsertDoc db d.id d.row) pageOk 0
      (by simpa using hpages)]

/-- Witness for C2: on the empty store `dbW` and the two-page document
`sdocW`, failing the second page write yields failure with the store
unchanged, while all-success commits the document row and both page rows. -/
theorem saveDocument_atomic_witness :
    saveDocument dbW sdocW true true (fun n => n == 0) = (false, dbW)
      ∧ saveDocument dbW sdocW true true (fun _ => true)
          = (true, sdocW.pages.foldl (fun s pg => upsertPage s pg.id pg.row)
              (upsertDoc dbW sdocW.id sdocW.row)) :=
  ⟨(saveDocument_atomic dbW sdocW true (fun n => n == 0)).1
      (Or.inr ⟨1, by decide, by decide⟩),
    (saveDocument_atomic dbW sdocW true (fun _ => true)).2
      ⟨rfl, fun _ _ => rfl⟩⟩

/-! ### Link table (`Document::addLink` / `removeLink` / `getBacklinks`) -/

theorem mem_getBacklinks {m : List (String × List String)} {a b : String} :
    a ∈ getBacklinks m b ↔ ∃ e ∈ m, e.1 = a ∧ b ∈ e.2 := by
  unfold getBacklinks
  constructor
  · intro h
    rcases List.mem_map.mp h with ⟨e, hmem, rfl⟩
    rcases List.mem_filter.mp hmem with ⟨hem, hcont⟩
    exact ⟨e, hem, rfl, by simpa using hcont⟩
  · rintro ⟨e, hem, rfl, hb⟩
    exact List.mem_map.mpr ⟨e, List.mem_filter.mpr ⟨hem, by simpa using hb⟩, rfl⟩

theorem ensureKey_exists (m : List (String × List String)) (k : String) :
    ∃ e ∈ ensureKey m k, e.1 = k := by
  unfold ensureKey
  by_cases h : m.any (fun e => e.1 = k) = true
  · rw [if_pos h]
    rcases List.any_eq_true.mp h with ⟨e, hem, he⟩
    exact ⟨e, hem, by simpa using he⟩
  · rw [if_neg h]
    exact ⟨(k, []), by simp, rfl⟩

theorem find?_key_of_exists {m : List (String × List String)} {k : String}
    (h : ∃ e ∈ m, e.1 = k) :
    ∃ e, m.find? (fun e => e.1 = k) = some e ∧ e.1 = k := by
  cases hf : m.find? (fun e => e.1 = k) with
  | none =>
    rcases h with ⟨e, hem, he⟩
    have := List.find?_eq_none.mp hf e hem
    simp [he] at this
  | some e => exact ⟨e, rfl, by simpa using List.find?_some hf⟩

theorem find?_mapUpdate (m : List (String × List String)) (k : String)
    (f : List String → List String) :
    (mapUpdate m k f).find? (fun e => e.1 = k)
      = (m.find? (fun e => e.1 = k)).map (fun e => (e.1, f e.2)) := by
  induction m with
  | nil => rfl
  | cons e t ih =>
    unfold mapUpdate at ih ⊢
    by_cases he : e.1 = k
    · simp only [List.map_cons, if_pos he]
      rw [List.find?_cons_of_pos _ (by simpa using he),
        List.find?_cons_of_pos _ (by simpa using he)]
      rfl
    · simp only [List.map_cons, if_neg he]
      rw [List.find?_cons_of_neg _ (by simpa using he),
        List.find?_cons_of_neg _ (by simpa using he)]
      exact ih

theorem linksGet_addLink (m : List (String × List String)) (a b : String) :
    b ∈ linksGet (addLink m a b) a := by
  unfold addLink
  by_cases hb : b ∈ linksGet (ensureKey m a) a
  · rw [if_pos hb]
    exact hb
  · rw [if_neg hb]
    unfold linksGet
    rcases find?_key_of_exists (ensureKey_exists m a) with ⟨e, hf, he⟩
    rw [find?_mapUpdate, hf]
    simp

theorem addLink_mem (m : List (String × List String)) (a b : String) :
    ∃ e ∈ addLink m a b, e.1 = a ∧ b ∈ e.2 := by
  unfold addLink
  by_cases hb : b ∈ linksGet (ensureKey m a) a
  · rw [if_pos hb]
    unfold linksGet at hb
    cases hf : (ensureKey m a).find? (fun e => e.1 = a) with
    | none =>
      rw [hf] at hb
      simp at hb
    | some e =>
      rw [hf] at hb
      exact ⟨e, List.mem_of_find?_eq_some hf, by simpa using List.find?_some hf, hb⟩
  · rw [if_neg hb]
    rcases ensureKey_exists m a with ⟨e, hem, he⟩
    refine ⟨(e.1, e.2 ++ [b]), ?_, he, by simp⟩
    unfold mapUpdate
    refine List.mem_map.mpr ⟨e, hem, ?_⟩
    rw [if_pos he]

theorem removeLink_no_backlink (m : List (String × List String)) (a b : String) :
    a ∉ getBacklinks (removeLink m a b) b := by
  intro hmem
  rcases mem_getBacklinks.mp hmem with ⟨e, hem, he1, hbe⟩
  unfold removeLink mapUpdate at hem
  rcases List.mem_map.mp hem with ⟨x, hx, hfx⟩
  by_cases hxa : x.1 = a
  · rw [if_pos hxa] at hfx
    rw [← hfx] at hbe
    have := List.mem_filter.mp hbe
    simp at this
  · rw [if_neg hxa] at hfx
    rw [← hfx] at he1
    exact hxa he1

theorem addLink_idem (m : List (String × List String)) (a b : String) :
    addLink (addLink m a b) a b = addLink m a b := by
  have hex : ∃ e ∈ addLink m a b, e.1 = a := by
    rcases addLink_mem m a b with ⟨e, hem, he, _⟩
    exact ⟨e, hem, he⟩
  have hens : ensureKey (addLink m a b) a = addLink m a b := by
    unfold ensureKey
    rcases hex with ⟨e, hem, he⟩
    rw [if_pos (List.any_eq_true.mpr ⟨e, hem, by simpa using he⟩)]
  conv_lhs => rw [addLink]
  rw [hens, if_pos (linksGet_addLink m a b)]

/-- C9.  `addLink(a,b)` makes `a` appear in `getBacklinks(b)`;
`removeLink(a,b)` removes `a` from `getBacklinks(b)` (the entry's target
list loses every occurrence of `b`); and `addLink` is idempotent: applying
it twice leaves the link table equal to applying it once (no duplicate
target per source). -/
theorem links_spec (m : List (String × List String)) (a b : String) :
    a ∈ getBacklinks (addLink m a b) b
      ∧ a ∉ getBacklinks (removeLink m a b) b
      ∧ addLink (addLink m a b) a b = addLink m a b :=
  ⟨mem_getBacklinks.mpr (addLink_mem m a b),
    removeLink_no_backlink m a b,
    addLink_idem m a b⟩

/-! ### Document construction -/

/-- C10.  A freshly constructed `Document` holds exactly the one
auto-created page "Page 1", its current-page reference is that page, and its
modified flag is already true: the constructor's `createNewPage("Page 1")`
runs `addPage`, which adopts the page as current (no current page exists
yet) and calls `markAsModified` before the constructor returns. -/
theorem newDocument_spec (freshDocId freshPid : String) :
    (newDocument freshDocId freshPid).pages = [⟨freshPid, "Page 1"⟩]
      ∧ (newDocument freshDocId freshPid).current = some freshPid
      ∧ (newDocument freshDocId freshPid).modified = true := by
  refine ⟨?_, ?_, rfl⟩ <;> simp [newDocument, createNewPage, addPage]

/-! ### Cloning (`TextObject::clone` / `DrawingObject::clone`) -/

/-- C1, counterexample to "the clone's id differs from the original's".
Both `clone()` overrides build the copy with
`clone->fromJson(this->toJson())`, and `Object::fromJson` reads `m_id` from
the serialized snapshot, overwriting the freshly generated UUID: the clone's
id *equals* the original's id (whatever height the renderer assigns; here
the render-height function keeps the stored height). -/
theorem clone_id_counterexample :
    (cloneText textW "fresh-id" (fun o => o.bounds.h)).oid = "orig-id"
      ∧ textW.oid = "orig-id"
      ∧ "fresh-id" ≠ "orig-id" :=
  ⟨rfl, rfl, by decide⟩

/-- C1, amended.  The clone copies the serialized attributes: the id (equal
to the original's — not fresh, contrary to the claim), layer, visibility,
content, markdown mode, font, alignment and line spacing, stroke
paths/modes/timestamps, and the bounds position and width.  Three things do
not round-trip: the bounds height of a text clone is re-fitted by the
trailing `setupDocument()` to the height of the freshly rendered document
(an engine value, `renderHeight` of the reconstructed state); every color
passes through `QColor::name()` and loses its alpha channel (the default
transparent background clones to the same rgb at alpha 255, a highlighter
pen's alpha 128 is lost); and the never-serialized brushes reset to
defaults, as do the transient selection, editing and capture state.
Mutating the clone cannot affect the original: the clone is rebuilt purely
from the serialized snapshot and shares no state, which in this
value-semantics model holds by construction. -/
theorem clone_amended :
    (∀ (t : TextObject) (freshId : String) (renderHeight : TextObject → Int),
        (cloneText t freshId renderHeight).oid = t.oid
      ∧ (cloneText t freshId renderHeight).content = t.content
      ∧ (cloneText t freshId renderHeight).markdownMode = t.markdownMode
      ∧ (cloneText t freshId renderHeight).layer = t.layer
      ∧ (cloneText t freshId renderHeight).visible = t.visible
      ∧ (cloneText t freshId renderHeight).selected = false
      ∧ (cloneText t freshId renderHeight).editing = false
      ∧ (cloneText t freshId renderHeight).fontFamily = t.fontFamily
      ∧ (cloneText t freshId renderHeight).fontSize = t.fontSize
      ∧ (cloneText t freshId renderHeight).fontBold = t.fontBold
      ∧ (cloneText t freshId renderHeight).fontItalic = t.fontItalic
      ∧ (cloneText t freshId renderHeight).alignment = t.alignment
      ∧ (cloneText t freshId renderHeight).lineSpacing = t.lineSpacing
      ∧ (cloneText t freshId renderHeight).textColor = colorFromName t.textColor.rgb
      ∧ (cloneText t freshId renderHeight).backgroundColor
          = colorFromName t.backgroundColor.rgb
      ∧ (cloneText t freshId renderHeight).bounds.x = t.bounds.x
      ∧ (cloneText t freshId renderHeight).bounds.y = t.bounds.y
      ∧ (cloneText t freshId renderHeight).bounds.w = t.bounds.w
      ∧ (cloneText t freshId renderHeight).bounds.h
          = renderHeight (textFromJsonFields (defaultTextObject freshId) (textToJson t)))
    ∧ ∀ (dr : DrawingObject) (freshId : String),
        cloneDrawing dr freshId
          = { dr with
              selected := false
              selectedStrokes := []
              drawing := false
              currentStroke := defaultStroke
              smoothPoints := []
              currentBrush := "NoBrush"
              currentPenColor := colorFromName dr.currentPenColor.rgb
              strokes := dr.strokes.map (fun s =>
                { s with brush := "NoBrush"
                         penColor := colorFromName s.penColor.rgb }) } := by
  constructor
  · intro t freshId renderHeight
    exact ⟨rfl, rfl, rfl, rfl, rfl, rfl, rfl, rfl, rfl, rfl, rfl, rfl, rfl,
      rfl, rfl, rfl, rfl, rfl, rfl⟩
  · intro dr freshId
    have hmap : (dr.strokes.map strokeToJson).map strokeFromJson
        = dr.strokes.map (fun s =>
            { s with brush := "NoBrush"
                     penColor := colorFromName s.penColor.rgb }) := by
      rw [List.map_map]
      rfl
    calc cloneDrawing dr freshId
        = DrawingObject.mk dr.oid dr.bounds false dr.layer dr.visible
            dr.currentMode (colorFromName dr.currentPenColor.rgb) dr.currentPenWidth
            dr.currentPenStyle dr.currentPenCap dr.currentPenJoin "NoBrush"
            ((dr.strokes.map strokeToJson).map strokeFromJson)
            [] false defaultStroke [] := rfl
      _ = _ := by rw [hmap]

/-! ### Stroke smoothing -/

theorem foldl_addPoint_length : ∀ (ps : List Pt) (buf : List Pt),
    (List.foldl addPointToStroke buf ps).length = buf.length + ps.length
  | [], buf => by simp
  | p :: ps, buf => by
    rw [List.foldl_cons, foldl_addPoint_length ps _]
    simp only [addPointToStroke, List.length_append, List.length_cons,
      List.length_nil]
    omega

theorem foldl_addPoint_getElem_early : ∀ (ps : List Pt) (buf : List Pt) (i : Nat),
    i < buf.length → (List.foldl addPointToStroke buf ps)[i]? = buf[i]?
  | [], _, _, _ => rfl
  | p :: ps, buf, i, hi => by
    rw [List.foldl_cons,
      foldl_addPoint_getElem_early ps _ i
        (by simp only [addPointToStroke, List.length_append]; omega)]
    unfold addPointToStroke
    rw [List.getElem?_append, if_pos hi]

theorem smoothed_tail_step (buf : List Pt) (p : Pt)
    (h : ∀ i, 3 ≤ i → i < buf.length →
      buf[i]? = some (windowMean ((buf.take i).drop (i - 3)))) :
    ∀ i, 3 ≤ i → i < (addPointToStroke buf p).length →
      (addPointToStroke buf p)[i]?
        = some (windowMean (((addPointToStroke buf p).take i).drop (i - 3))) := by
  intro i h3 hlen
  unfold addPointToStroke at hlen ⊢
  rw [List.length_append] at hlen
  simp only [List.length_cons, List.length_nil] at hlen
  by_cases hib : i < buf.length
  · rw [List.getElem?_append, if_pos hib,
      List.take_append_of_le_length (le_of_lt hib), h i h3 hib]
  · have hieq : i = buf.length := by omega
    subst hieq
    rw [List.getElem?_concat_length,
      List.take_append_of_le_length (le_refl _), List.take_length]
    rw [smoothPoint, if_neg (by omega)]

theorem smoothed_tail_foldl : ∀ (ps : List Pt) (buf : List Pt),
    (∀ i, 3 ≤ i → i < buf.length →
      buf[i]? = some (windowMean ((buf.take i).drop (i - 3)))) →
    ∀ i, 3 ≤ i → i < (List.foldl addPointToStroke buf ps).length →
      (List.foldl addPointToStroke buf ps)[i]?
        = some (windowMean
            (((List.foldl addPointToStroke buf ps).take i).drop (i - 3)))
  | [], _, h => h
  | p :: ps, buf, h => by
    rw [List.foldl_cons]
    exact smoothed_tail_foldl ps _ (smoothed_tail_step buf p h)

theorem captureStroke_raw_start (p0 : Pt) (ps : List Pt) :
    ∀ i, i < 3 → (captureStroke p0 ps)[i]? = (p0 :: ps)[i]? := by
  intro i hi
  match ps with
  | [] => interval_cases i <;> simp [captureStroke]
  | [p1] =>
    have h1 : captureStroke p0 [p1] = [p0, p1] := rfl
    rw [h1]
  | p1 :: p2 :: ps2 =>
    have h1 : captureStroke p0 (p1 :: p2 :: ps2)
        = List.foldl addPointToStroke [p0, p1, p2] ps2 := rfl
    rw [h1, foldl_addPoint_getElem_early ps2 [p0, p1, p2] i (by simpa using hi)]
    interval_cases i <;> simp

/-- C8, counterexample.  Capturing the stroke `(0,0), (6,0), (12,0), (99,0)`
emits `(6,0)` as its fourth point: the mean of the three *previously
buffered* points `(0,0), (6,0), (12,0)` — the incoming raw point is not part
of the window.  The claim's "mean of the last 3 raw input points" would be
the mean of `(6,0), (12,0), (99,0)`, i.e. `(39,0)`. -/
theorem smoothing_counterexample :
    captureStroke ⟨0, 0⟩ [⟨6, 0⟩, ⟨12, 0⟩, ⟨99, 0⟩]
        = [⟨0, 0⟩, ⟨6, 0⟩, ⟨12, 0⟩, ⟨6, 0⟩]
      ∧ windowMean [⟨6, 0⟩, ⟨12, 0⟩, ⟨99, 0⟩] = ⟨39, 0⟩
      ∧ (⟨6, 0⟩ : Pt) ≠ ⟨39, 0⟩ := by
  refine ⟨by decide, by decide, by decide⟩

/-- C8, amended.  While the smoothing buffer holds fewer than `k = 3` points
the raw point passes through unchanged.  From then on each incoming point is
replaced by the componentwise truncating integer mean of the last `k = 3`
points *already in the buffer* — which are the previously emitted
(smoothed) points, the incoming raw point itself not included.  Over a whole
capture: the first three emitted points are the raw inputs, and every later
emitted point is the mean of the three emitted points before it. -/
theorem smoothing_amended :
    (∀ (buf : List Pt) (p : Pt), buf.length < 3 → smoothPoint buf p = p)
      ∧ (∀ (buf : List Pt) (p : Pt), 3 ≤ buf.length →
          smoothPoint buf p = windowMean (buf.drop (buf.length - 3)))
      ∧ (∀ (p0 : Pt) (ps : List Pt) (i : Nat), i < 3 →
          (captureStroke p0 ps)[i]? = (p0 :: ps)[i]?)
      ∧ (∀ (p0 : Pt) (ps : List Pt) (i : Nat), 3 ≤ i →
          i < (captureStroke p0 ps).length →
          (captureStroke p0 ps)[i]?
            = some (windowMean
                (((captureStroke p0 ps).take i).drop (i - 3)))) := by
  refine ⟨?_, ?_, captureStroke_raw_start, ?_⟩
  · intro buf p h
    simp [smoothPoint, h]
  · intro buf p h
    rw [smoothPoint, if_neg (by omega)]
  · intro p0 ps
    refine smoothed_tail_foldl ps [p0] ?_
    intro i h3 hlen
    simp only [List.length_cons, List.length_nil] at hlen
    omega

/-- Witness for C8 (amended): the second point of a stroke passes through
raw; with three buffered points the next point becomes the buffer mean; and
on the concrete capture `(0,0), (6,0), (12,0), (99,0)` the early points are
raw while the fourth equals the mean of the first three emitted points. -/
theorem smoothing_amended_witness :
    smoothPoint [⟨0, 0⟩] ⟨5, 5⟩ = ⟨5, 5⟩
      ∧ smoothPoint [⟨0, 0⟩, ⟨6, 0⟩, ⟨12, 0⟩] ⟨99, 0⟩
          = windowMean ([(⟨0, 0⟩ : Pt), ⟨6, 0⟩, ⟨12, 0⟩].drop 0)
      ∧ (captureStroke ⟨0, 0⟩ [⟨6, 0⟩])[1]? = ((⟨0, 0⟩ : Pt) :: [⟨6, 0⟩])[1]?
      ∧ (captureStroke ⟨0, 0⟩ [⟨6, 0⟩, ⟨12, 0⟩, ⟨99, 0⟩])[3]?
          = some (windowMean
              (((captureStroke ⟨0, 0⟩ [⟨6, 0⟩, ⟨12, 0⟩, ⟨99, 0⟩]).take 3).drop 0)) :=
  ⟨smoothing_amended.1 [⟨0, 0⟩] ⟨5, 5⟩ (by decide),
    smoothing_amended.2.1 [⟨0, 0⟩, ⟨6, 0⟩, ⟨12, 0⟩] ⟨99, 0⟩ (by decide),
    smoothing_amended.2.2.1 ⟨0, 0⟩ [⟨6, 0⟩] 1 (by decide),
    smoothing_amended.2.2.2 ⟨0, 0⟩ [⟨6, 0⟩, ⟨12, 0⟩, ⟨99, 0⟩] 3 (by decide) (by decide)⟩

end NoteApp
